import Mathlib

/-!
Shallow embedding of the mind-map graph-state engine
(`src/components/MindMap.tsx`, split across `src/unnamed/part_003`, and
`src/utils/fileUtils.ts`): the node/edge model, the snapshot history
(`addToHistory` / `handleUndo` / `handleRedo`), the connection resolver
(`onConnect` / `onConnectStart` / `onConnectEnd`), and the tree serializer
(`handleSave` export and `handleLoad` import).

Conventions of the embedding:
* TypeScript strings are `String`, numbers used as coordinates are `ℚ`,
  millisecond timestamps are `ℕ`.
* An optional TS field (`x?: T`) is `Option T`; the JS coalescing idiom
  `s || d` on strings (which also replaces the empty string) is `jsStr` /
  `jsStrOpt` below.
* `JSON.parse(JSON.stringify(x))` deep copies are the identity on the pure
  values modelled here.
* Wall-clock reads (`Date.now()`, `new Date().toISOString()`) are passed in
  as explicit parameters.
-/

/-- `'low' | 'medium' | 'high'` (`src/types/MindMap.ts`). -/
inductive Priority where
  | low | medium | high
deriving DecidableEq

/-- `'todo' | 'in_progress' | 'done'` (`src/types/MindMap.ts`). -/
inductive Status where
  | todo | inProgress | done
deriving DecidableEq

/-- The `nodeData` payload carried by a flow node (mirrors the scalar fields
of `MindMapNode` in `src/types/MindMap.ts` as used by the editor). -/
structure NodeData where
  id : String
  title : String
  description : Option String
  priority : Option Priority
  status : Option Status
  created_at : String
  start_date : Option String
  due_date : Option String
  tags : Option (List String)
deriving DecidableEq

/-- A React-Flow node as the editor uses it: an id, a canvas position and the
`data.nodeData` payload. -/
structure FlowNode where
  id : String
  position : ℚ × ℚ
  nodeData : NodeData
deriving DecidableEq

/-- A React-Flow edge as the editor creates it: all creation sites set
`sourceHandle`/`targetHandle` to one of `"top" | "right" | "bottom" | "left"`
and `data.label` to a string (`""` when unlabelled), so those are plain
`String`s here. -/
structure Edge where
  id : String
  source : String
  target : String
  sourceHandle : String
  targetHandle : String
  label : String
deriving DecidableEq

/-- The live graph state: the `nodes` and `edges` React state arrays. -/
structure Graph where
  nodes : List FlowNode
  edges : List Edge
deriving DecidableEq

/-- JS `s || d` on a string: the empty string is falsy and is replaced. -/
def jsStr (s d : String) : String := if s = "" then d else s

/-- JS `s || d` where `s` is an optional string field: both a missing field
and the empty string fall back to `d`. -/
def jsStrOpt (s : Option String) (d : String) : String :=
  match s with
  | none => d
  | some v => if v = "" then d else v

/-! ## History Manager

`addToHistory` (part_003 lines 601-648), `handleUndo` (651-677),
`handleRedo` (680-706).  The history React state is initialised to
`{ nodes: [initialNodes], edges: [[]], currentIndex: 0, lastActionTime:
Date.now() }` with `initialNodes = []` (lines 492, 535-545), and
`lastHistoryUpdateRef` starts at `Date.now()` (line 558). -/

/-- The history React state: two parallel snapshot lists, a cursor and the
time of the last accepted action. -/
structure History where
  nodes : List (List FlowNode)
  edges : List (List Edge)
  currentIndex : Nat
  lastActionTime : Nat
deriving DecidableEq

/-- The part of the component state the history mechanism touches: the live
graph, the history state and the `lastHistoryUpdateRef` debounce ref. -/
structure AppState where
  nodes : List FlowNode
  edges : List Edge
  history : History
  lastHistoryUpdate : Nat
deriving DecidableEq

/-- `newNodesHistory[newNodesHistory.length - 1]`: the last snapshot of the
truncated history.  The code indexes unconditionally; under the machine's
reachable states the list is never empty, and we read `[]` for the
out-of-range case JS would render as `undefined`. -/
def lastSnap {α : Type} (l : List (List α)) : List α := l.getLastD []

/-- `addToHistory(newNodes, newEdges)` at wall-clock `now`, lines 601-648:
1. 100 ms debounce against `lastHistoryUpdateRef`;
2. drop the redo tail after `currentIndex`;
3. coalesce when node/edge counts match the last snapshot and less than
   500 ms elapsed since `lastActionTime`;
4. deep-copy and append, then evict the front entry beyond 50.
The `isUndoingRef` early return is the `isUndoing` argument (the flag is set
only for the 50 ms window around an undo/redo replacement). -/
def addToHistory (st : AppState) (newNodes : List FlowNode) (newEdges : List Edge)
    (now : Nat) (isUndoing : Bool) : AppState :=
  if isUndoing then st
  else if now < st.lastHistoryUpdate + 100 then st
  else
    let st := { st with lastHistoryUpdate := now }
    let prev := st.history
    let newNodesHistory := prev.nodes.take (prev.currentIndex + 1)
    let newEdgesHistory := prev.edges.take (prev.currentIndex + 1)
    if (lastSnap newNodesHistory).length = newNodes.length ∧
        (lastSnap newEdgesHistory).length = newEdges.length ∧
        now < prev.lastActionTime + 500 then
      st
    else
      let newNodesHistory := newNodesHistory ++ [newNodes]
      let newEdgesHistory := newEdgesHistory ++ [newEdges]
      let newNodesHistory := if 50 < newNodesHistory.length then newNodesHistory.drop 1
        else newNodesHistory
      let newEdgesHistory := if 50 < newEdgesHistory.length then newEdgesHistory.drop 1
        else newEdgesHistory
      { st with history :=
          { nodes := newNodesHistory
            edges := newEdgesHistory
            currentIndex := newNodesHistory.length - 1
            lastActionTime := now } }

/-- `handleUndo` (lines 651-677): no-op at index `0`; otherwise step the
cursor back and replace the live nodes/edges with the snapshots there. -/
def handleUndo (st : AppState) (now : Nat) : AppState :=
  let prev := st.history
  if prev.currentIndex = 0 then st
  else
    let newIndex := prev.currentIndex - 1
    { st with
      nodes := prev.nodes.getD newIndex []
      edges := prev.edges.getD newIndex []
      history := { prev with currentIndex := newIndex, lastActionTime := now } }

/-- `handleRedo` (lines 680-706): no-op at the last index; otherwise step the
cursor forward and replace the live state with the snapshots there. -/
def handleRedo (st : AppState) (now : Nat) : AppState :=
  let prev := st.history
  if prev.nodes.length ≤ prev.currentIndex + 1 then st
  else
    let newIndex := prev.currentIndex + 1
    { st with
      nodes := prev.nodes.getD newIndex []
      edges := prev.edges.getD newIndex []
      history := { prev with currentIndex := newIndex, lastActionTime := now } }

/-- One observable event of the history machine: a user mutation (the new
live state, whose debounced effect then calls `addToHistory`), an undo, or a
redo, each with its wall-clock time. -/
inductive HOp where
  | mutate (newNodes : List FlowNode) (newEdges : List Edge) (now : Nat)
  | undo (now : Nat)
  | redo (now : Nat)

/-- Apply one event.  A mutation first replaces the live state and is then
captured by the `useEffect` at lines 709-719 (by which point the 50 ms
`isUndoingRef` window has expired, so `isUndoing = false`). -/
def stepH (st : AppState) : HOp → AppState
  | .mutate ns es now => addToHistory { st with nodes := ns, edges := es } ns es now false
  | .undo now => handleUndo st now
  | .redo now => handleRedo st now

/-- The initial state: empty canvas, one empty snapshot, both time refs at
the mount time `t0`. -/
def initState (t0 : Nat) : AppState :=
  { nodes := [], edges := [],
    history := { nodes := [[]], edges := [[]], currentIndex := 0, lastActionTime := t0 },
    lastHistoryUpdate := t0 }

/-- Run a sequence of history-machine events from the initial state. -/
def runH (t0 : Nat) (ops : List HOp) : AppState := ops.foldl stepH (initState t0)

/-- Repeated `handleUndo`. -/
def undoIter (k : Nat) (st : AppState) : AppState :=
  match k with
  | 0 => st
  | k + 1 => undoIter k (handleUndo st 0)

/-- The structural invariant of the history state: parallel lists of equal
nonempty length at most 50, cursor in range. -/
def HistInv (st : AppState) : Prop :=
  st.history.nodes.length = st.history.edges.length ∧
  1 ≤ st.history.nodes.length ∧
  st.history.nodes.length ≤ 50 ∧
  st.history.currentIndex < st.history.nodes.length

/-- The length-cap step of `addToHistory`: evict the front entry when the
list has grown beyond 50. -/
def evict {α : Type} (l : List (List α)) : List (List α) :=
  if 50 < l.length then l.drop 1 else l

/-- The live state agrees with the snapshot under the cursor, and the cursor
sits at the top of the history.  This holds initially and after every
accepted capture. -/
def Synced (st : AppState) : Prop :=
  HistInv st ∧
  st.history.currentIndex = st.history.nodes.length - 1 ∧
  st.lastHistoryUpdate ≤ st.history.lastActionTime ∧
  st.nodes = st.history.nodes.getD st.history.currentIndex [] ∧
  st.edges = st.history.edges.getD st.history.currentIndex []

/-- A sequence of user mutations with their capture times. -/
def capsRun (st : AppState) : List (List FlowNode × List Edge × Nat) → AppState
  | [] => st
  | (ns, es, t) :: rest => capsRun (stepH st (.mutate ns es t)) rest

/-- Consecutive capture times at least 500 ms (the coalescing window) apart,
starting from the previous logged action time. -/
def CapsOk (tprev : Nat) : List (List FlowNode × List Edge × Nat) → Prop
  | [] => True
  | (_, _, t) :: rest => tprev + 500 ≤ t ∧ CapsOk t rest

/-- Demo payloads used by concrete witnesses and counterexamples. -/
def demoData : NodeData :=
  { id := "n1", title := "t", description := some "d", priority := none, status := none,
    created_at := "2024-01-01T00:00:00Z", start_date := some "2024-01-02",
    due_date := some "2024-01-03", tags := none }

def demoNode : FlowNode := { id := "n1", position := (0, 0), nodeData := demoData }

/-- Same shape as `demoNode` (so history coalescing sees equal counts) but a
different title. -/
def demoNode2 : FlowNode := { id := "n1", position := (0, 0), nodeData := { demoData with title := "t2" } }

/-- A state whose history is at the 50-entry bound with the cursor on top. -/
def fullHistState : AppState :=
  { nodes := [], edges := [],
    history := { nodes := List.replicate 50 [], edges := List.replicate 50 [],
                 currentIndex := 49, lastActionTime := 0 },
    lastHistoryUpdate := 0 }

/-- The concrete run refuting C4 as stated: two mutations whose captures are
200 ms apart — more than the 100 ms debounce window — where the second one
has the same node/edge counts as the first and is therefore coalesced away
(dropped) by `addToHistory`. -/
def c4run : AppState :=
  runH 0 [HOp.mutate [demoNode] [] 1000, HOp.mutate [demoNode2] [] 1200]

/-- A React-Flow `Connection`: all four fields are nullable. -/
structure Connection where
  source : Option String
  target : Option String
  sourceHandle : Option String
  targetHandle : Option String

/-- The `directions` object of `onConnect` (lines 1201-1206) in insertion
order, which is the iteration order of `Object.entries`. -/
def anchorDirs : List (String × (ℚ × ℚ)) :=
  [("right", (1, 0)), ("left", (-1, 0)), ("bottom", (0, 1)), ("top", (0, -1))]

/-- The best-dot-product scan of lines 1214-1237: start from a default
direction with `bestDotProduct = -Infinity` (modelled as `none`) and keep any
candidate whose score is strictly greater. -/
def pickAnchor (init : String) (score : ℚ × ℚ → ℚ) : String :=
  (anchorDirs.foldl
    (fun best cand =>
      let d := score cand.2
      match best.2 with
      | none => (cand.1, some d)
      | some b => if b < d then (cand.1, some d) else best)
    (init, none)).1

/-- Source-side anchor choice: maximize the dot product with the unit
direction vector `(ux, uy)` from source to target (lines 1214-1224). -/
def selectSourceAnchor (ux uy : ℚ) : String :=
  pickAnchor "right" (fun v => ux * v.1 + uy * v.2)

/-- Target-side anchor choice: maximize the dot product with the negated
unit direction vector (lines 1226-1237). -/
def selectTargetAnchor (ux uy : ℚ) : String :=
  pickAnchor "left" (fun v => -ux * v.1 + -uy * v.2)

/-- Reactflow's `addEdge` helper (external library, not in this repository):
it appends the new edge unless an edge with the same source, target and
handles already exists. -/
def rfAddEdge (e : Edge) (eds : List Edge) : List Edge :=
  if eds.any (fun x => (x.source == e.source) && (x.target == e.target) &&
      (x.sourceHandle == e.sourceHandle) && (x.targetHandle == e.targetHandle)) then eds
  else eds ++ [e]

/-- `onConnect(params)` (lines 1167-1264).  Duplicate `(source, target,
sourceHandle, targetHandle)` connections are rejected; otherwise, when the
caller did not specify both handles, the anchor sides are chosen by the
dot-product scan over the unit vector between the node centers.  The code's
`distance = Math.sqrt(dx*dx + dy*dy)` is irrational in general, so it is
passed in as the parameter `norm`; theorems relate it to `dx`/`dy` by the
hypothesis `norm * norm = dx * dx + dy * dy`, `0 < norm`. -/
def onConnect (nodes : List FlowNode) (edges : List Edge) (params : Connection)
    (norm : ℚ) (nowMs : String) : List Edge :=
  let existingEdge := edges.find? (fun e =>
    (some e.source == params.source) && (some e.target == params.target) &&
    (some e.sourceHandle == params.sourceHandle) &&
    (some e.targetHandle == params.targetHandle))
  match existingEdge, params.source, params.target with
  | none, some s, some t =>
    match nodes.find? (fun n => n.id == s), nodes.find? (fun n => n.id == t) with
    | some sourceNode, some targetNode =>
      let st :=
        match params.sourceHandle, params.targetHandle with
        | some a, some b => (a, b)
        | _, _ =>
          let dx := targetNode.position.1 - sourceNode.position.1
          let dy := targetNode.position.2 - sourceNode.position.2
          let ux := dx / norm
          let uy := dy / norm
          (selectSourceAnchor ux uy, selectTargetAnchor ux uy)
      rfAddEdge
        { id := "edge-" ++ nowMs, source := s, target := t,
          sourceHandle := st.1, targetHandle := st.2, label := "" } edges
    | _, _ => edges
  | _, _, _ => edges

/-- The duplicate-connection test, as a reusable Boolean predicate. -/
def connMatches (s t sh th : String) (e : Edge) : Bool :=
  (e.source == s) && (e.target == t) && (e.sourceHandle == sh) && (e.targetHandle == th)

/-- Concrete instantiation of `claim_C5_duplicate_connection`: connect
`n1 → n2` (anchors `right`/`left`) twice on two demo nodes. -/
def demoNodeB : FlowNode :=
  { id := "n2", position := (300, 0), nodeData := { demoData with id := "n2" } }

/-- The unit vector attached to an anchor name (the values of the
`directions` object). -/
def anchorVec (a : String) : ℚ × ℚ :=
  if a = "right" then (1, 0)
  else if a = "left" then (-1, 0)
  else if a = "bottom" then (0, 1)
  else (0, -1)

/-- The component state a connect gesture touches: the graph, the selected
node, and the two refs `connectingHandleRef` / `connectionSuccessfulRef`. -/
structure GestureState where
  nodes : List FlowNode
  edges : List Edge
  selected : Option FlowNode
  connectingHandle : Option String
  connectionSuccessful : Bool

/-- `onConnectStart` (lines 1267-1280): select the source node, record the
starting anchor, clear the success flag. -/
def onConnectStartFn (st : GestureState) (nodeId : String) (handleId : Option String) :
    GestureState :=
  match st.nodes.find? (fun n => n.id == nodeId) with
  | some n => { st with selected := some n, connectingHandle := handleId,
                        connectionSuccessful := false }
  | none => st

/-- `onConnect` as it acts on the gesture state: it unconditionally sets the
success flag (line 1171) and updates the edges. -/
def onConnectFn (st : GestureState) (params : Connection) (norm : ℚ) (nowMs : String) :
    GestureState :=
  { st with connectionSuccessful := true,
            edges := onConnect st.nodes st.edges params norm nowMs }

/-- The fresh node synthesized by `onConnectEnd` (lines 1363-1381): titled
`新任务`, created now, start/due dates set to the current day. -/
def newTaskNode (newNodeId : String) (pos : ℚ × ℚ) (nowIso currentDate : String) : FlowNode :=
  { id := newNodeId, position := pos,
    nodeData :=
      { id := newNodeId, title := "新任务", description := none, priority := none,
        status := none, created_at := nowIso, start_date := some currentDate,
        due_date := some currentDate, tags := none } }

/-- `onConnectEnd` (lines 1283-1413).  `targetIsPane` is the
`react-flow__pane` hit test; `pos` is `screenToFlowPosition` of the pointer
(computed but overwritten by `adjustedPosition` in every node-creating
branch); `nowMs`/`nowIso`/`currentDate` stand for the wall clock. -/
def onConnectEndFn (st : GestureState) (targetIsPane : Bool) (pos : ℚ × ℚ)
    (nowMs nowIso currentDate : String) : GestureState :=
  if st.connectionSuccessful then
    { st with connectingHandle := none, connectionSuccessful := false }
  else if targetIsPane then
    match st.selected with
    | none => { st with connectingHandle := none, connectionSuccessful := false }
    | some selectedNode =>
      match st.connectingHandle with
      | none => { st with connectingHandle := none, connectionSuccessful := false }
      | some sourceHandleId =>
        let go : (ℚ × ℚ) → String → GestureState := fun adjustedPosition targetHandleId =>
          let newNodeId := "node-" ++ nowMs
          let newNode := newTaskNode newNodeId adjustedPosition nowIso currentDate
          let newEdge : Edge :=
            { id := "edge-" ++ nowMs, source := selectedNode.id, target := newNodeId,
              sourceHandle := sourceHandleId, targetHandle := targetHandleId, label := "" }
          { st with
            nodes := st.nodes ++ [newNode]
            edges := st.edges ++ [newEdge]
            selected := some newNode
            connectingHandle := none
            connectionSuccessful := false }
        if sourceHandleId = "top" then
          go (selectedNode.position.1, selectedNode.position.2 - 112) "bottom"
        else if sourceHandleId = "right" then
          go (selectedNode.position.1 + 168, selectedNode.position.2) "left"
        else if sourceHandleId = "bottom" then
          go (selectedNode.position.1, selectedNode.position.2 + 112) "top"
        else if sourceHandleId = "left" then
          go (selectedNode.position.1 - 168, selectedNode.position.2) "right"
        else
          { st with connectingHandle := none, connectionSuccessful := false }
  else { st with connectingHandle := none, connectionSuccessful := false }

/-- One whole connect gesture: `onConnectStart`, then (when the pointer was
released over a node and react-flow completed a connection) `onConnect`, then
`onConnectEnd`. -/
def runGesture (st : GestureState) (startNodeId : String) (startHandle : Option String)
    (mid : Option Connection) (targetIsPane : Bool) (pos : ℚ × ℚ)
    (norm : ℚ) (nowMs nowIso currentDate : String) : GestureState :=
  let st1 := onConnectStartFn st startNodeId startHandle
  let st2 := match mid with
    | some params => onConnectFn st1 params norm nowMs
    | none => st1
  onConnectEndFn st2 targetIsPane pos nowMs nowIso currentDate

/-- The position offset `onConnectEnd` gives the synthesized node, by
starting anchor: directly above/below by `2 × NODE_HEIGHT = 112`, or
left/right by `1.5 × NODE_WIDTH = 168`. -/
def anchorOffsetPos (p : ℚ × ℚ) : String → ℚ × ℚ
  | "top" => (p.1, p.2 - 112)
  | "right" => (p.1 + 168, p.2)
  | "bottom" => (p.1, p.2 + 112)
  | _ => (p.1 - 168, p.2)

/-- The mirrored anchor the new node is connected at. -/
def mirrorAnchor : String → String
  | "top" => "bottom"
  | "right" => "left"
  | "bottom" => "top"
  | _ => "right"

/-- A gesture state mid-way: started from `demoNode`'s `right` anchor. -/
def demoGesture : GestureState :=
  { nodes := [demoNode], edges := [], selected := some demoNode,
    connectingHandle := some "right", connectionSuccessful := false }

/-- A persisted tree node (`MindMapNode` in `src/types/MindMap.ts`).  The
mutable per-id objects of the export loop are resolved into this immutable
tree the way `JSON.stringify` serializes them. -/
inductive MindMapNode where
  | mk (id title : String) (description : Option String) (priority : Option Priority)
      (status : Option Status) (created_at : Option String)
      (start_date due_date : Option String) (tags : Option (List String))
      (edgeLabel : Option String) (children : List MindMapNode)

def MindMapNode.id : MindMapNode → String
  | .mk i _ _ _ _ _ _ _ _ _ _ => i

def MindMapNode.title : MindMapNode → String
  | .mk _ t _ _ _ _ _ _ _ _ _ => t

def MindMapNode.description : MindMapNode → Option String
  | .mk _ _ d _ _ _ _ _ _ _ _ => d

def MindMapNode.priority : MindMapNode → Option Priority
  | .mk _ _ _ p _ _ _ _ _ _ _ => p

def MindMapNode.status : MindMapNode → Option Status
  | .mk _ _ _ _ s _ _ _ _ _ _ => s

def MindMapNode.created_at : MindMapNode → Option String
  | .mk _ _ _ _ _ c _ _ _ _ _ => c

def MindMapNode.start_date : MindMapNode → Option String
  | .mk _ _ _ _ _ _ sd _ _ _ _ => sd

def MindMapNode.due_date : MindMapNode → Option String
  | .mk _ _ _ _ _ _ _ dd _ _ _ => dd

def MindMapNode.tags : MindMapNode → Option (List String)
  | .mk _ _ _ _ _ _ _ _ tg _ _ => tg

def MindMapNode.edgeLabel : MindMapNode → Option String
  | .mk _ _ _ _ _ _ _ _ _ el _ => el

def MindMapNode.children : MindMapNode → List MindMapNode
  | .mk _ _ _ _ _ _ _ _ _ _ cs => cs

/-- A persisted theme (`MindMapTheme`): `handleSave` fills `id`/`title` from
the current canvas and `created_at` from the export time (no `updated_at`). -/
structure MindMapTheme where
  id : String
  title : String
  created_at : Option String
  updated_at : Option String
  children : List MindMapNode

/-- The persisted document (`MindMapData`). -/
structure MindMapData where
  mindMaps : List MindMapTheme

/-- The mutable state the `edges.forEach` export loop (lines 1067-1082)
builds up: per node id, the list of child ids pushed so far and the
`edgeLabel` written last. -/
structure ExportStore where
  childIds : String → List String
  label : String → Option String

def graphIds (g : Graph) : List String := g.nodes.map (·.id)

/-- One iteration of the export loop: both endpoints must be in the node
map; the target is pushed onto the source's `children`; a nonempty label
overwrites the target's `edgeLabel`. -/
def exportStep (ids : List String) (st : ExportStore) (e : Edge) : ExportStore :=
  if e.source ∈ ids ∧ e.target ∈ ids then
    { childIds := fun i => if i = e.source then st.childIds i ++ [e.target] else st.childIds i,
      label := if e.label = "" then st.label
        else fun i => if i = e.target then some e.label else st.label i }
  else st

def exportStore (g : Graph) : ExportStore :=
  g.edges.foldl (exportStep (graphIds g)) ⟨fun _ => [], fun _ => none⟩

/-- `nodeMap.get(i)`: `Map.set` overwrites, so the entry is the last node
with that id. -/
def findLastNode (g : Graph) (i : String) : Option FlowNode :=
  g.nodes.reverse.find? (fun n => n.id == i)

/-- The value the per-id object holds once the export loop is done, resolved
into a tree.  `fuel` bounds the recursion depth: `JSON.stringify` resolves
any tree reachable from the roots, and on the acyclic graphs the claims are
about, a fuel exceeding the node count never truncates. -/
def resolveNode (g : Graph) (st : ExportStore) (nowIso : String) : Nat → String → Option MindMapNode
  | 0, _ => none
  | fuel + 1, i =>
    match findLastNode g i with
    | none => none
    | some n =>
      some (.mk i (jsStr n.nodeData.title "") (some (jsStrOpt n.nodeData.description ""))
        n.nodeData.priority n.nodeData.status (some (jsStr n.nodeData.created_at nowIso))
        n.nodeData.start_date n.nodeData.due_date none (st.label i)
        ((st.childIds i).filterMap (resolveNode g st nowIso fuel)))

/-- The root filter of lines 1084-1093: nodes that are not the target of any
edge. -/
def rootNodes (g : Graph) : List FlowNode :=
  g.nodes.filter (fun n => !(g.edges.any (fun e => e.target == n.id)))

/-- The whole `handleSave` document: one synthesized theme whose children
are the resolved roots. -/
def exportDocument (g : Graph) (canvasId canvasName nowIso : String) (fuel : Nat) :
    MindMapData :=
  { mindMaps := [{ id := canvasId, title := canvasName, created_at := some nowIso,
                   updated_at := none,
                   children := (rootNodes g).filterMap
                     (fun n => resolveNode g (exportStore g) nowIso fuel n.id) }] }

/-- A bare node used by serializer counterexamples. -/
def mkPlainNode (i : String) : FlowNode :=
  { id := i, position := (0, 0), nodeData := { demoData with id := i } }

/-- Two labelled edges into the same node `Z`. -/
def gC6 : Graph :=
  { nodes := [mkPlainNode "X", mkPlainNode "Y", mkPlainNode "Z"],
    edges := [{ id := "e1", source := "X", target := "Z", sourceHandle := "right",
                targetHandle := "left", label := "a" },
              { id := "e2", source := "Y", target := "Z", sourceHandle := "right",
                targetHandle := "left", label := "b" }] }

/-- The children list of a resolved node (empty when the id is absent). -/
def resolveChildren (g : Graph) (st : ExportStore) (now : String) (fuel : Nat) (i : String) :
    List MindMapNode :=
  ((resolveNode g st now fuel i).map MindMapNode.children).getD []

/-- Two labelled edges into the same node `R`: the claimed per-parent labels. -/
def gC7 : Graph :=
  { nodes := [mkPlainNode "P", mkPlainNode "Q", mkPlainNode "R"],
    edges := [{ id := "f1", source := "P", target := "R", sourceHandle := "right",
                targetHandle := "left", label := "first" },
              { id := "f2", source := "Q", target := "R", sourceHandle := "right",
                targetHandle := "left", label := "second" }] }

/-- The ambient inputs of one `handleLoad` run: the current day
(`new Date().toISOString().split('T')[0]`, line 1842), the import-time ISO
timestamp, the millisecond clock used in generated ids, and the
`Date.now()+Math.random()` fresh-id source, modelled as an indexed supply. -/
structure ImportCtx where
  currentDate : String
  nowIso : String
  nowMs : String
  fresh : Nat → String

mutual
/-- `processNode` (lines 1845-1893): build the flow node for one tree node
(missing ids drawn twice from the fresh supply, missing dates filled with
the current date, missing `created_at` with the import timestamp), an edge
from its parent when there is one (fixed `right`→`left` anchors, carrying
`edgeLabel || ''`), then recurse into the children. -/
def processNode (ctx : ImportCtx) (t : MindMapNode) (parent : Option String)
    (pos : ℚ × ℚ) (k : Nat) : List FlowNode × List Edge × Nat :=
  let fid1 := if t.id = "" then ctx.fresh k else t.id
  let k1 := if t.id = "" then k + 1 else k
  let fid2 := if t.id = "" then ctx.fresh k1 else t.id
  let k2 := if t.id = "" then k1 + 1 else k1
  let newNode : FlowNode :=
    { id := fid1, position := pos,
      nodeData :=
        { id := fid2, title := jsStr t.title "",
          description := some (jsStrOpt t.description ""),
          priority := t.priority, status := t.status,
          created_at := jsStrOpt t.created_at ctx.nowIso,
          start_date := some (jsStrOpt t.start_date ctx.currentDate),
          due_date := some (jsStrOpt t.due_date ctx.currentDate), tags := none } }
  let ownEdges : List Edge :=
    match parent with
    | some p =>
        [{ id := "edge-" ++ p ++ "-" ++ fid1 ++ "-" ++ ctx.nowMs, source := p, target := fid1,
           sourceHandle := "right", targetHandle := "left",
           label := jsStrOpt t.edgeLabel "" }]
    | none => []
  let rest := processChildren ctx t.children fid1 pos ((t.children.length : ℚ)) 0 k2
  (newNode :: rest.1, ownEdges ++ rest.2.1, rest.2.2)
termination_by sizeOf t
decreasing_by
  simp_wf
  cases t
  simp [MindMapNode.children]
  try omega

/-- The `node.children.forEach` loop (lines 1884-1892): each child at
`(parent.x + 1.5·NODE_WIDTH, parent.y + (index − total/2) · 1.5·NODE_HEIGHT)`. -/
def processChildren (ctx : ImportCtx) (ts : List MindMapNode) (parentId : String)
    (base : ℚ × ℚ) (total : ℚ) (idx : Nat) (k : Nat) : List FlowNode × List Edge × Nat :=
  match ts with
  | [] => ([], [], k)
  | t :: rest =>
      let childPos : ℚ × ℚ := (base.1 + 168, base.2 + ((idx : ℚ) - total / 2) * 84)
      let r1 := processNode ctx t (some parentId) childPos k
      let r2 := processChildren ctx rest parentId base total (idx + 1) r1.2.2
      (r1.1 ++ r2.1, r1.2.1 ++ r2.2.1, r2.2.2)
termination_by sizeOf ts
decreasing_by
  all_goals simp_wf
  all_goals try simp
  all_goals try omega
end

/-- The `theme.children.forEach` loop (lines 1899-1910): roots stacked
vertically from `(100, 100)` with a `2·NODE_HEIGHT` step. -/
def processRoots (ctx : ImportCtx) (ts : List MindMapNode) (idx : Nat) (k : Nat) :
    List FlowNode × List Edge × Nat :=
  match ts with
  | [] => ([], [], k)
  | t :: rest =>
      let pos : ℚ × ℚ := (100, 100 + (idx : ℚ) * 112)
      let r1 := processNode ctx t none pos k
      let r2 := processRoots ctx rest (idx + 1) r1.2.2
      (r1.1 ++ r2.1, r1.2.1 ++ r2.2.1, r2.2.2)

/-- The placeholder node synthesized from the theme itself when it has no
children (lines 1912-1931).  The code computes `theme-${Date.now()}` for
both the node id and the payload id; both reads happen in the same
millisecond, modelled as the single value `"theme-" ++ nowMs`. -/
def themeFallbackNode (ctx : ImportCtx) (th : MindMapTheme) : FlowNode :=
  { id := jsStr th.id ("theme-" ++ ctx.nowMs), position := (100, 100),
    nodeData :=
      { id := jsStr th.id ("theme-" ++ ctx.nowMs),
        title := jsStr th.title "思维导图", description := some "",
        priority := none, status := none,
        created_at := jsStrOpt th.created_at ctx.nowIso,
        start_date := some ctx.currentDate, due_date := some ctx.currentDate,
        tags := none } }

/-- The graph `handleLoad` builds from a document: only the first theme is
used; a theme with no children yields the placeholder node; the new state
fully replaces the old one.  `none` when `mindMaps` is empty (the
`加载失败` message branch, which leaves the state untouched). -/
def importGraph (ctx : ImportCtx) (d : MindMapData) : Option Graph :=
  match d.mindMaps with
  | [] => none
  | theme :: _ =>
      if 0 < theme.children.length then
        let r := processRoots ctx theme.children 0 0
        some { nodes := r.1, edges := r.2.1 }
      else
        some { nodes := [themeFallbackNode ctx theme], edges := [] }

/-- A parsed JSON value (the result of `JSON.parse` in `loadFromFile`). -/
inductive Json where
  | null
  | bool (b : Bool)
  | num (n : ℚ)
  | str (s : String)
  | arr (elems : List Json)
  | obj (fields : List (String × Json))

/-- JS property access `data[key]` on an object: the first binding wins. -/
def jsonLookup (fields : List (String × Json)) (key : String) : Option Json :=
  (fields.find? (fun f => f.1 == key)).map (·.2)

/-- JS truthiness, as `!data.mindMaps` tests it. -/
def jsTruthy : Json → Bool
  | .null => false
  | .bool b => b
  | .num n => !(n == 0)
  | .str s => !(s == "")
  | .arr _ => true
  | .obj _ => true

/-- `Array.isArray`. -/
def isArrayJson : Json → Bool
  | .arr _ => true
  | _ => false

/-- The structure validation of `loadFromFile` (fileUtils lines 183-188):
`if (!data.mindMaps || !Array.isArray(data.mindMaps)) return null`.  A
non-object document has no `mindMaps` property and is rejected the same way
(reading a property of `null` throws, which the surrounding catch turns
into the same no-mutation failure path). -/
def loadValidate (j : Json) : Option Json :=
  match j with
  | .obj fields =>
      match jsonLookup fields "mindMaps" with
      | some v => if jsTruthy v && isArrayJson v then some j else none
      | none => none
  | _ => none

/-- The spec's error taxonomy for import: the `MalformedDocumentError`
outcome is the `return null` path of `loadFromFile` plus `handleLoad`'s
`加载失败` message branch; in both the graph state is never touched. -/
inductive LoadResult where
  | ok
  | malformedDocument
deriving DecidableEq

/-- `handleLoad` end to end on already-read file text: validate, cast (the
TS `data as MindMapData` cast is the uninterpreted `decode` parameter),
check `mindMaps.length > 0`, and only then replace the whole graph. -/
def handleLoadModel (st : Graph) (ctx : ImportCtx) (j : Json)
    (decode : Json → MindMapData) : Graph × LoadResult :=
  match loadValidate j with
  | none => (st, .malformedDocument)
  | some j' =>
      match importGraph ctx (decode j') with
      | some g => (g, .ok)
      | none => (st, .malformedDocument)

/-- A document node with every date field absent. -/
def c10doc : MindMapNode :=
  .mk "A" "task" none none none none none none none none []

/-- The import context used by concrete import witnesses. -/
def ctx0 : ImportCtx :=
  { currentDate := "2024-06-02", nowIso := "2024-06-02T00:00:00Z", nowMs := "7",
    fresh := fun n => "fresh-" ++ toString n }

/-- The node attributes the round-trip claim compares: everything except the
id and the canvas position. -/
structure NodeFields where
  title : String
  description : Option String
  priority : Option Priority
  status : Option Status
  created_at : String
  start_date : Option String
  due_date : Option String
  tags : Option (List String)
deriving DecidableEq

def fieldsOfData (nd : NodeData) : NodeFields :=
  { title := nd.title, description := nd.description, priority := nd.priority,
    status := nd.status, created_at := nd.created_at, start_date := nd.start_date,
    due_date := nd.due_date, tags := nd.tags }

def fieldsOf (n : FlowNode) : NodeFields := fieldsOfData n.nodeData

/-- Graph isomorphism in the sense of the claim: a renaming `φ` of node ids
under which the two graphs carry the same multiset of node field values and
the same parent/child edge relation; ids and positions may differ. -/
def GraphIso (g1 g2 : Graph) : Prop :=
  ∃ φ : String → String,
    (g1.nodes.map (fun n => (φ n.id, fieldsOf n))).Perm
      (g2.nodes.map (fun n => (n.id, fieldsOf n))) ∧
    ∀ s t : String,
      (∃ e ∈ g1.edges, e.source = s ∧ e.target = t) ↔
      (∃ e ∈ g2.edges, e.source = φ s ∧ e.target = φ t)

/-- Export to the persisted document and import it back. -/
def roundTrip (g : Graph) (cid cname nowIso : String) (fuel : Nat) (ctx : ImportCtx) :
    Option Graph :=
  importGraph ctx (exportDocument g cid cname nowIso fuel)

/-- A forest node whose `start_date` is absent. -/
def c1node : FlowNode :=
  { id := "A", position := (0, 0),
    nodeData :=
      { id := "A", title := "t", description := some "d", priority := none, status := none,
        created_at := "2024-01-01T00:00:00Z", start_date := none,
        due_date := some "2024-01-05", tags := none } }

def gC1 : Graph := { nodes := [c1node], edges := [] }

/-- The document tree `gC1` exports to: the single node, with
`start_date` still absent. -/
def c1tree : MindMapNode :=
  .mk "A" "t" (some "d") none none (some "2024-01-01T00:00:00Z") none
    (some "2024-01-05") none none []

/-- The theme `handleSave` wraps it in. -/
def c1theme : MindMapTheme :=
  { id := "c", title := "n", created_at := some "now", updated_at := none,
    children := [c1tree] }

/-- What that graph becomes after saving and loading (with `ctx0`): the
`start_date` has been filled in with the import day. -/
def c1rtNode : FlowNode :=
  { id := "A", position := (100, 100),
    nodeData :=
      { id := "A", title := "t", description := some "d", priority := none, status := none,
        created_at := "2024-01-01T00:00:00Z", start_date := some "2024-06-02",
        due_date := some "2024-01-05", tags := none } }

/-- The parent of a node id: the source of the first edge targeting it
(`edges.find` semantics). -/
def parentOf (g : Graph) (i : String) : Option String :=
  (g.edges.find? (fun e => e.target == i)).map (·.source)

/-- Iterated parent lookup: the ancestor `d` steps above `i`, if the chain
is that long. -/
def ascend (g : Graph) : Nat → String → Option String
  | 0, i => some i
  | d+1, i => (parentOf g i).bind (ascend g d)

/-- The child list the export loop stores for `i`. -/
def childIdsOf (g : Graph) (i : String) : List String := (exportStore g).childIds i

/-- The ids in the document subtree exported below `i` (with `resolveNode`'s
fuel discipline). -/
def subtreeIds (g : Graph) : Nat → String → List String
  | 0, _ => []
  | fuel+1, i => i :: (childIdsOf g i).flatMap (subtreeIds g fuel)

/-- The parent/child pairs in the document subtree exported below `i`:
a child consumes one unit of fuel, and a child resolved with fuel 0 is
dropped together with its edge. -/
def subtreePairs (g : Graph) : Nat → String → List (String × String)
  | 0, _ => []
  | 1, _ => []
  | fuel+2, i => (childIdsOf g i).flatMap (fun c => (i, c) :: subtreePairs g (fuel+1) c)

def junkFields : NodeFields :=
  { title := "", description := none, priority := none, status := none,
    created_at := "", start_date := none, due_date := none, tags := none }

/-- The field values of the node registered under `i` in the export's node
map. -/
def nodeFieldsAt (g : Graph) (i : String) : NodeFields :=
  match findLastNode g i with
  | some n => fieldsOf n
  | none => junkFields

/-- The field shape under which a node survives the round trip unchanged:
description present, both dates present and nonempty, a nonempty creation
timestamp, and no tags. -/
def GoodFields (nd : NodeData) : Prop :=
  nd.description ≠ none ∧ nd.start_date ≠ none ∧ nd.start_date ≠ some "" ∧
  nd.due_date ≠ none ∧ nd.due_date ≠ some "" ∧ nd.created_at ≠ "" ∧ nd.tags = none

instance (nd : NodeData) : Decidable (GoodFields nd) := by
  unfold GoodFields; infer_instance

/-- Every edge joins two present nodes, and no node id is hit by two edges. -/
def WfEdges (g : Graph) : Prop :=
  (∀ e ∈ g.edges, e.source ∈ graphIds g ∧ e.target ∈ graphIds g) ∧
  (∀ i ∈ graphIds g, (g.edges.filter (fun e => e.target == i)).length ≤ 1)

/-- Every node reaches, in fewer than `|nodes|` parent steps, an ancestor
with no parent: the forest has no cycles. -/
def Rooted (g : Graph) : Prop :=
  ∀ n ∈ g.nodes, ∃ d, d < g.nodes.length ∧
    (ascend g d n.id).isSome = true ∧ ascend g (d+1) n.id = none

def rootIds (g : Graph) : List String := (rootNodes g).map (·.id)

def mkTheme (cid cname nowIso : String) (ch : List MindMapNode) : MindMapTheme :=
  { id := cid, title := cname, created_at := some nowIso, updated_at := none,
    children := ch }

instance (g : Graph) : Decidable (WfEdges g) := by
  unfold WfEdges; infer_instance

instance (g : Graph) : Decidable (Rooted g) := by
  unfold Rooted; infer_instance

def c1wNodeA : FlowNode :=
  { id := "A", position := (0, 0),
    nodeData :=
      { id := "A", title := "a", description := some "d", priority := none, status := none,
        created_at := "c1", start_date := some "s1", due_date := some "u1", tags := none } }

def c1wNodeB : FlowNode :=
  { id := "B", position := (10, 10),
    nodeData :=
      { id := "B", title := "b", description := some "e", priority := none, status := none,
        created_at := "c2", start_date := some "s2", due_date := some "u2", tags := none } }

def c1wEdge : Edge :=
  { id := "e1", source := "A", target := "B", sourceHandle := "right",
    targetHandle := "left", label := "lab" }

def gC1W : Graph := { nodes := [c1wNodeA, c1wNodeB], edges := [c1wEdge] }

theorem histInv_init (t0 : Nat) : HistInv (initState t0) := by
  refine ⟨rfl, ?_, ?_, ?_⟩ <;> simp [initState]

theorem histInv_addToHistory (st : AppState) (ns : List FlowNode) (es : List Edge)
    (now : Nat) (u : Bool) (h : HistInv st) : HistInv (addToHistory st ns es now u) := by
  obtain ⟨hpar, hlo, hhi, hcur⟩ := h
  simp only [addToHistory]
  split
  · exact ⟨hpar, hlo, hhi, hcur⟩
  split
  · exact ⟨hpar, hlo, hhi, hcur⟩
  split
  · exact ⟨hpar, hlo, hhi, hcur⟩
  · have htn : (st.history.nodes.take (st.history.currentIndex + 1)).length
        = st.history.currentIndex + 1 := by
      rw [List.length_take]
      omega
    have hte : (st.history.edges.take (st.history.currentIndex + 1)).length
        = st.history.currentIndex + 1 := by
      rw [List.length_take]
      omega
    constructor
    · simp only [HistInv]
      split <;> split <;>
        simp_all [List.length_drop, List.length_append] <;> omega
    refine ⟨?_, ?_, ?_⟩
    · simp only []
      split <;> simp_all [List.length_drop, List.length_append] <;> omega
    · simp only []
      split <;> simp_all [List.length_drop, List.length_append] <;> omega
    · simp only []
      split <;> simp_all [List.length_drop, List.length_append] <;> omega

theorem histInv_handleUndo (st : AppState) (now : Nat) (h : HistInv st) :
    HistInv (handleUndo st now) := by
  obtain ⟨hpar, hlo, hhi, hcur⟩ := h
  simp only [handleUndo]
  split
  · exact ⟨hpar, hlo, hhi, hcur⟩
  · exact ⟨hpar, hlo, hhi, by simpa using Nat.lt_of_le_of_lt (Nat.sub_le _ _) hcur⟩

theorem histInv_handleRedo (st : AppState) (now : Nat) (h : HistInv st) :
    HistInv (handleRedo st now) := by
  obtain ⟨hpar, hlo, hhi, hcur⟩ := h
  simp only [handleRedo]
  split
  · exact ⟨hpar, hlo, hhi, hcur⟩
  · next hlt =>
      refine ⟨hpar, hlo, hhi, ?_⟩
      show st.history.currentIndex + 1 < st.history.nodes.length
      omega

theorem histInv_stepH (st : AppState) (op : HOp) (h : HistInv st) : HistInv (stepH st op) := by
  cases op with
  | mutate ns es now =>
      exact histInv_addToHistory _ ns es now false ⟨h.1, h.2.1, h.2.2.1, h.2.2.2⟩
  | undo now => exact histInv_handleUndo _ now h
  | redo now => exact histInv_handleRedo _ now h

theorem histInv_runH (t0 : Nat) (ops : List HOp) : HistInv (runH t0 ops) := by
  have : ∀ (l : List HOp) (st : AppState), HistInv st → HistInv (l.foldl stepH st) := by
    intro l
    induction l with
    | nil => intro st h; exact h
    | cons op rest ih => intro st h; exact ih _ (histInv_stepH st op h)
  exact this ops _ (histInv_init t0)

/-- `handleUndo` never changes the snapshot lists, only the cursor and live
state. -/
theorem handleUndo_history_nodes (st : AppState) (now : Nat) :
    (handleUndo st now).history.nodes = st.history.nodes ∧
    (handleUndo st now).history.edges = st.history.edges := by
  simp only [handleUndo]
  split <;> exact ⟨rfl, rfl⟩

theorem undoIter_history (k : Nat) (st : AppState) :
    (undoIter k st).history.nodes = st.history.nodes ∧
    (undoIter k st).history.edges = st.history.edges := by
  induction k generalizing st with
  | zero => exact ⟨rfl, rfl⟩
  | succ k ih =>
      have h1 := handleUndo_history_nodes st 0
      have h2 := ih (handleUndo st 0)
      exact ⟨h2.1.trans h1.1, h2.2.trans h1.2⟩

/-- After enough undos the cursor is at `0` and (when at least one undo was
effective) the live state is the snapshot at index `0`, the oldest retained
one. -/
theorem undoIter_reaches_oldest (st : AppState) (k : Nat)
    (hk : st.history.currentIndex ≤ k) :
    (undoIter k st).history.currentIndex = 0 ∧
    (1 ≤ st.history.currentIndex →
      (undoIter k st).nodes = st.history.nodes.getD 0 [] ∧
      (undoIter k st).edges = st.history.edges.getD 0 []) := by
  induction k generalizing st with
  | zero =>
      refine ⟨Nat.le_zero.mp hk, ?_⟩
      intro h1
      omega
  | succ k ih =>
      rw [undoIter]
      by_cases h0 : st.history.currentIndex = 0
      · have hfix : handleUndo st 0 = st := by
          unfold handleUndo
          simp [h0]
        rw [hfix]
        have := ih st (by omega)
        exact ⟨this.1, fun h1 => absurd h0 (by omega)⟩
      · have hst' : (handleUndo st 0).history.currentIndex = st.history.currentIndex - 1 ∧
            (handleUndo st 0).nodes = st.history.nodes.getD (st.history.currentIndex - 1) [] ∧
            (handleUndo st 0).edges = st.history.edges.getD (st.history.currentIndex - 1) [] ∧
            (handleUndo st 0).history.nodes = st.history.nodes ∧
            (handleUndo st 0).history.edges = st.history.edges := by
          unfold handleUndo
          simp [h0]
        obtain ⟨hc, hn, he, hhn, hhe⟩ := hst'
        have := ih (handleUndo st 0) (by omega)
        refine ⟨this.1, fun _ => ?_⟩
        by_cases h1 : st.history.currentIndex = 1
        · -- the undo just performed landed on index 0; further undos are no-ops
          have hiter : undoIter k (handleUndo st 0) = handleUndo st 0 := by
            have hfix : ∀ (s : AppState), s.history.currentIndex = 0 →
                ∀ m, undoIter m s = s := by
              intro s hs m
              induction m with
              | zero => rfl
              | succ m ihm =>
                  have : handleUndo s 0 = s := by
                    unfold handleUndo
                    simp [hs]
                  simp [undoIter, this, ihm]
            exact hfix _ (by omega) k
          rw [hiter, hn, he]
          simp [h1]
        · have h2 : 1 ≤ (handleUndo st 0).history.currentIndex := by omega
          have := (ih (handleUndo st 0) (by omega)).2 h2
          exact ⟨this.1.trans (by rw [hhn]), this.2.trans (by rw [hhe])⟩

/-- When the 100 ms debounce and the 500 ms coalescing window have both
passed, `addToHistory` accepts the capture: truncate at the cursor, append,
evict beyond 50. -/
theorem addToHistory_accepts (st : AppState) (ns : List FlowNode) (es : List Edge) (now : Nat)
    (hdeb : st.lastHistoryUpdate + 100 ≤ now)
    (hco : st.history.lastActionTime + 500 ≤ now) :
    addToHistory st ns es now false =
      { st with
        lastHistoryUpdate := now,
        history :=
          { nodes := evict (st.history.nodes.take (st.history.currentIndex + 1) ++ [ns]),
            edges := evict (st.history.edges.take (st.history.currentIndex + 1) ++ [es]),
            currentIndex :=
              (evict (st.history.nodes.take (st.history.currentIndex + 1) ++ [ns])).length - 1,
            lastActionTime := now } } := by
  simp only [addToHistory, evict, Bool.false_eq_true, if_false]
  rw [if_neg (by omega), if_neg (fun h => absurd h.2.2 (by omega))]

/-- Last element of an appended singleton, through `getD`. -/
theorem getD_append_singleton {α : Type} (l : List α) (x d : α) :
    (l ++ [x]).getD l.length d = x := by
  induction l with
  | nil => rfl
  | cons a t ih => simpa using ih

theorem synced_init (t0 : Nat) : Synced (initState t0) :=
  ⟨histInv_init t0, rfl, le_refl _, rfl, rfl⟩

theorem evict_append_length {α : Type} (l : List (List α)) (x : List α) :
    (evict (l ++ [x])).length = if 50 ≤ l.length then l.length else l.length + 1 := by
  simp only [evict, List.length_append, List.length_cons, List.length_nil]
  split <;> split <;> simp [List.length_drop] <;> omega

theorem evict_append_getD_last {α : Type} (l : List (List α)) (x : List α) (k : Nat)
    (hk : k + 1 = (evict (l ++ [x])).length) : (evict (l ++ [x])).getD k [] = x := by
  by_cases hbig : 50 < (l ++ [x]).length
  · have hev : evict (l ++ [x]) = (l ++ [x]).drop 1 := if_pos hbig
    have hlpos : 1 ≤ l.length := by
      simp only [List.length_append, List.length_cons, List.length_nil] at hbig
      omega
    have hdrop : (l ++ [x]).drop 1 = l.drop 1 ++ [x] :=
      List.drop_append_of_le_length (by omega)
    have hlen : (l.drop 1).length = l.length - 1 := by simp
    have hkval : k = (l.drop 1).length := by
      rw [hev, hdrop] at hk
      simp only [List.length_append, List.length_cons, List.length_nil, hlen] at hk ⊢
      omega
    rw [hev, hdrop, hkval]
    exact getD_append_singleton _ _ _
  · have hev : evict (l ++ [x]) = l ++ [x] := if_neg hbig
    have hkval : k = l.length := by
      rw [hev] at hk
      simp only [List.length_append, List.length_cons, List.length_nil] at hk
      omega
    rw [hev, hkval]
    exact getD_append_singleton _ _ _

/-- An accepted capture preserves `Synced`, pushes the cursor to at least 1,
and logs the capture time. -/
theorem synced_capture (st : AppState) (ns : List FlowNode) (es : List Edge) (now : Nat)
    (hs : Synced st) (hgap : st.history.lastActionTime + 500 ≤ now) :
    Synced (stepH st (.mutate ns es now)) ∧
    1 ≤ (stepH st (.mutate ns es now)).history.currentIndex ∧
    (stepH st (.mutate ns es now)).history.lastActionTime = now ∧
    (stepH st (.mutate ns es now)).nodes = ns ∧
    (stepH st (.mutate ns es now)).edges = es := by
  obtain ⟨⟨hpar, hlo, hhi, hcur⟩, hidx, hlu, hln, hle⟩ := hs
  have hstep : stepH st (.mutate ns es now) =
      addToHistory { st with nodes := ns, edges := es } ns es now false := rfl
  have hacc := addToHistory_accepts { st with nodes := ns, edges := es } ns es now
    (by simp only []; omega) (by simp only []; omega)
  rw [hstep, hacc]
  have htake : st.history.nodes.take (st.history.currentIndex + 1) = st.history.nodes :=
    List.take_of_length_le (by omega)
  have htake' : st.history.edges.take (st.history.currentIndex + 1) = st.history.edges :=
    List.take_of_length_le (by omega)
  simp only [htake, htake']
  have hnl := evict_append_length st.history.nodes ns
  have hel := evict_append_length st.history.edges es
  have hlenn : 1 ≤ (evict (st.history.nodes ++ [ns])).length := by
    rw [hnl]; split <;> omega
  have hzn := evict_append_getD_last st.history.nodes ns
    ((evict (st.history.nodes ++ [ns])).length - 1) (by omega)
  have hze := evict_append_getD_last st.history.edges es
    ((evict (st.history.nodes ++ [ns])).length - 1)
    (by rw [hnl, hel]; split <;> split <;> omega)
  refine ⟨⟨⟨?_, ?_, ?_, ?_⟩, ?_, ?_, ?_, ?_⟩, ?_, ?_, ?_, ?_⟩ <;>
    (try simp only [hzn, hze]) <;>
    first
      | rfl
      | (rw [hnl, hel]; split <;> split <;> omega)
      | (rw [hnl]; split <;> omega)
      | omega

theorem capsRun_synced (caps : List (List FlowNode × List Edge × Nat)) (st : AppState)
    (hs : Synced st) (hok : CapsOk st.history.lastActionTime caps) :
    Synced (capsRun st caps) ∧
    (caps ≠ [] → 1 ≤ (capsRun st caps).history.currentIndex) := by
  induction caps generalizing st with
  | nil => exact ⟨hs, fun h => absurd rfl h⟩
  | cons c rest ih =>
      obtain ⟨ns, es, t⟩ := c
      obtain ⟨hgap, hrest⟩ := hok
      have hc := synced_capture st ns es t hs hgap
      have hih := ih (stepH st (.mutate ns es t)) hc.1 (by rw [hc.2.2.1]; exact hrest)
      refine ⟨hih.1, fun _ => ?_⟩
      rw [capsRun]
      by_cases hrest' : rest = []
      · subst hrest'
        simpa [capsRun] using hc.2.1
      · exact hih.2 hrest'

/-- On a synced state whose cursor is at the top and at least 1,
`handleUndo` then `handleRedo` restores the live node and edge state. -/
theorem redo_undo_restores (st : AppState) (hs : Synced st)
    (h1 : 1 ≤ st.history.currentIndex) (u r : Nat) :
    (handleRedo (handleUndo st u) r).nodes = st.nodes ∧
    (handleRedo (handleUndo st u) r).edges = st.edges := by
  obtain ⟨⟨hpar, hlo, hhi, hcur⟩, hidx, hlu, hln, hle⟩ := hs
  have hundo : handleUndo st u =
      { st with
        nodes := st.history.nodes.getD (st.history.currentIndex - 1) []
        edges := st.history.edges.getD (st.history.currentIndex - 1) []
        history := { st.history with
                     currentIndex := st.history.currentIndex - 1
                     lastActionTime := u } } := by
    simp only [handleUndo]
    rw [if_neg (by omega)]
  rw [hundo]
  have hredo : ∀ (s : AppState), s.history.currentIndex + 1 < s.history.nodes.length + 0 →
      handleRedo s r =
      { s with
        nodes := s.history.nodes.getD (s.history.currentIndex + 1) []
        edges := s.history.edges.getD (s.history.currentIndex + 1) []
        history := { s.history with
                     currentIndex := s.history.currentIndex + 1
                     lastActionTime := r } } := by
    intro s hlt
    simp only [handleRedo]
    rw [if_neg (by omega)]
  rw [hredo _ (by simp only []; omega)]
  simp only []
  have : st.history.currentIndex - 1 + 1 = st.history.currentIndex := by omega
  rw [this, ← hln, ← hle]
  exact ⟨rfl, rfl⟩

/-! ## Claim C3 and C4 -/

/-- C3: for every sequence of history-machine events, the history list never
exceeds 50 entries and never becomes empty; repeating `undo` enough times
brings the cursor to index 0 with the live state equal to the oldest retained
snapshot (not an empty history); and an accepted capture on a full history
evicts the oldest snapshot from the front, keeping the length at 50. -/
theorem claim_C3_history_bound :
    (∀ (t0 : Nat) (ops : List HOp),
      (runH t0 ops).history.nodes.length ≤ 50 ∧ (runH t0 ops).history.nodes ≠ []) ∧
    (∀ (t0 : Nat) (ops : List HOp) (k : Nat),
      (runH t0 ops).history.currentIndex ≤ k →
      (undoIter k (runH t0 ops)).history.nodes = (runH t0 ops).history.nodes ∧
      (undoIter k (runH t0 ops)).history.currentIndex = 0 ∧
      (1 ≤ (runH t0 ops).history.currentIndex →
        (undoIter k (runH t0 ops)).nodes = (runH t0 ops).history.nodes.getD 0 [] ∧
        (undoIter k (runH t0 ops)).edges = (runH t0 ops).history.edges.getD 0 [])) ∧
    (∀ (st : AppState) (ns : List FlowNode) (es : List Edge) (now : Nat),
      HistInv st → st.history.nodes.length = 50 → st.history.currentIndex = 49 →
      st.lastHistoryUpdate + 100 ≤ now → st.history.lastActionTime + 500 ≤ now →
      (stepH st (.mutate ns es now)).history.nodes = st.history.nodes.drop 1 ++ [ns] ∧
      (stepH st (.mutate ns es now)).history.nodes.length = 50) := by
  refine ⟨?_, ?_, ?_⟩
  · intro t0 ops
    obtain ⟨hp, hl, hh, hc⟩ := histInv_runH t0 ops
    exact ⟨hh, List.ne_nil_of_length_pos (by omega)⟩
  · intro t0 ops k hk
    exact ⟨(undoIter_history k _).1, (undoIter_reaches_oldest _ k hk).1,
      fun h1 => (undoIter_reaches_oldest _ k hk).2 h1⟩
  · intro st ns es now hinv hlen hidx hdeb hco
    obtain ⟨hpar, hlo, hhi, hcur⟩ := hinv
    have hstep : stepH st (.mutate ns es now) =
        addToHistory { st with nodes := ns, edges := es } ns es now false := rfl
    have hacc := addToHistory_accepts { st with nodes := ns, edges := es } ns es now
      (by exact hdeb) (by exact hco)
    rw [hstep, hacc]
    have htake : st.history.nodes.take (st.history.currentIndex + 1) = st.history.nodes :=
      List.take_of_length_le (by omega)
    simp only [htake]
    have hbig : 50 < (st.history.nodes ++ [ns]).length := by
      simp [List.length_append, hlen]
    have hev : evict (st.history.nodes ++ [ns]) = (st.history.nodes ++ [ns]).drop 1 :=
      if_pos hbig
    have hdrop : (st.history.nodes ++ [ns]).drop 1 = st.history.nodes.drop 1 ++ [ns] :=
      List.drop_append_of_le_length (by omega)
    constructor
    · show evict (st.history.nodes ++ [ns]) = st.history.nodes.drop 1 ++ [ns]
      rw [hev, hdrop]
    · show (evict (st.history.nodes ++ [ns])).length = 50
      rw [hev, hdrop]
      simp [List.length_append, List.length_drop, hlen]

/-- Concrete instantiation of `claim_C3_history_bound`: one accepted capture,
one undo; and one accepted capture on a full 50-entry history. -/
theorem claim_C3_witness :
    ((undoIter 1 (runH 0 [HOp.mutate [demoNode] [] 1000])).history.currentIndex = 0 ∧
      (undoIter 1 (runH 0 [HOp.mutate [demoNode] [] 1000])).nodes =
        (runH 0 [HOp.mutate [demoNode] [] 1000]).history.nodes.getD 0 []) ∧
    (stepH fullHistState (.mutate [demoNode] [] 1000)).history.nodes.length = 50 := by
  refine ⟨⟨?_, ?_⟩, ?_⟩
  · exact (claim_C3_history_bound.2.1 0 [HOp.mutate [demoNode] [] 1000] 1 (by decide)).2.1
  · exact ((claim_C3_history_bound.2.1 0 [HOp.mutate [demoNode] [] 1000] 1 (by decide)).2.2
      (by decide)).1
  · exact (claim_C3_history_bound.2.2 fullHistState [demoNode] [] 1000
      ⟨by decide, by decide, by decide, by decide⟩ (by decide)
      (by decide) (by decide) (by decide)).2

/-- C4 counterexample: with captures separated by more than the debounce
window (200 ms > 100 ms), `undo()` immediately followed by `redo()` does
not restore the pre-undo live state: the second capture was coalesced
(equal counts within 500 ms), so redo lands on the first snapshot
`[demoNode]`, not the live `[demoNode2]`. -/
theorem claim_C4_counterexample :
    100 < 1200 - 1000 ∧
    (handleRedo (handleUndo c4run 1300) 1350).nodes ≠ c4run.nodes := by
  constructor
  · decide
  · decide

/-- C4 (amended): for every nonempty sequence of mutations whose captures
are separated by at least the 500 ms coalescing window (so that every
capture is accepted), `undo()` followed immediately by `redo()` restores
exactly the node and edge state that existed before the `undo()`. -/
theorem claim_C4_undo_redo (t0 : Nat) (caps : List (List FlowNode × List Edge × Nat))
    (u r : Nat) (hne : caps ≠ []) (hok : CapsOk t0 caps) :
    (handleRedo (handleUndo (capsRun (initState t0) caps) u) r).nodes =
      (capsRun (initState t0) caps).nodes ∧
    (handleRedo (handleUndo (capsRun (initState t0) caps) u) r).edges =
      (capsRun (initState t0) caps).edges := by
  have hs := capsRun_synced caps (initState t0) (synced_init t0) hok
  exact redo_undo_restores _ hs.1 (hs.2 hne) u r

/-- Concrete instantiation of `claim_C4_undo_redo`. -/
theorem claim_C4_witness :
    (handleRedo (handleUndo (capsRun (initState 0) [([demoNode], [], 700)]) 800) 900).nodes =
      (capsRun (initState 0) [([demoNode], [], 700)]).nodes :=
  (claim_C4_undo_redo 0 [([demoNode], [], 700)] 800 900 (by decide) ⟨by omega, trivial⟩).1

/-! ## Connection Resolver

`onConnect` (part_003 lines 1167-1264), `onConnectStart` (1267-1280),
`onConnectEnd` (1283-1413), with `NODE_WIDTH = 112`, `NODE_HEIGHT = 56`
(lines 400-401). -/

/-- Membership characterization of `connMatches`. -/
theorem connMatches_iff (s t sh th : String) (e : Edge) :
    connMatches s t sh th e = true ↔
      e.source = s ∧ e.target = t ∧ e.sourceHandle = sh ∧ e.targetHandle = th := by
  simp [connMatches, and_assoc]

/-- The duplicate test of `onConnect` agrees with `connMatches` when all four
params are supplied. -/
theorem connFind_iff (s t sh th : String) (e : Edge) :
    ((some e.source == some s) && (some e.target == some t) &&
      (some e.sourceHandle == some sh) && (some e.targetHandle == some th)) = true ↔
      e.source = s ∧ e.target = t ∧ e.sourceHandle = sh ∧ e.targetHandle = th := by
  simp [and_assoc]

/-- C5: adding a connection whose `(source, target, sourceAnchor,
targetAnchor)` quadruple matches an existing edge is a no-op, and adding the
same fully-specified connection twice (between existing nodes, starting from
a state with no such edge) leaves exactly one matching edge. -/
theorem claim_C5_duplicate_connection :
    (∀ (nodes : List FlowNode) (edges : List Edge) (s t sh th : String) (norm : ℚ)
        (nowMs : String),
      (∃ e ∈ edges, e.source = s ∧ e.target = t ∧ e.sourceHandle = sh ∧ e.targetHandle = th) →
      onConnect nodes edges ⟨some s, some t, some sh, some th⟩ norm nowMs = edges) ∧
    (∀ (nodes : List FlowNode) (edges : List Edge) (s t sh th : String) (norm1 norm2 : ℚ)
        (ms1 ms2 : String),
      (∃ n ∈ nodes, n.id = s) → (∃ n ∈ nodes, n.id = t) →
      (edges.filter (connMatches s t sh th)).length = 0 →
      ((onConnect nodes
          (onConnect nodes edges ⟨some s, some t, some sh, some th⟩ norm1 ms1)
          ⟨some s, some t, some sh, some th⟩ norm2 ms2).filter
        (connMatches s t sh th)).length = 1) := by
  have hnoop : ∀ (nodes : List FlowNode) (edges : List Edge) (s t sh th : String) (norm : ℚ)
      (nowMs : String),
      (∃ e ∈ edges, e.source = s ∧ e.target = t ∧ e.sourceHandle = sh ∧ e.targetHandle = th) →
      onConnect nodes edges ⟨some s, some t, some sh, some th⟩ norm nowMs = edges := by
    intro nodes edges s t sh th norm nowMs hex
    obtain ⟨e, he, hprops⟩ := hex
    simp only [onConnect]
    cases hfind : edges.find? (fun e =>
        (some e.source == some s) && (some e.target == some t) &&
        (some e.sourceHandle == some sh) && (some e.targetHandle == some th)) with
    | none =>
        rw [List.find?_eq_none] at hfind
        exact absurd ((connFind_iff s t sh th e).mpr hprops) (by simpa using hfind e he)
    | some e' => rfl
  refine ⟨hnoop, ?_⟩
  intro nodes edges s t sh th norm1 norm2 ms1 ms2 hs ht hcount
  have hflt : edges.filter (connMatches s t sh th) = [] := List.length_eq_zero.mp hcount
  have hnodup : ∀ e ∈ edges,
      ¬(e.source = s ∧ e.target = t ∧ e.sourceHandle = sh ∧ e.targetHandle = th) := by
    intro e he hc
    have hmem : e ∈ edges.filter (connMatches s t sh th) :=
      List.mem_filter.mpr ⟨he, (connMatches_iff s t sh th e).mpr hc⟩
    rw [hflt] at hmem
    exact absurd hmem (List.not_mem_nil e)
  have hfirst : onConnect nodes edges ⟨some s, some t, some sh, some th⟩ norm1 ms1 =
      edges ++ [{ id := "edge-" ++ ms1, source := s, target := t,
                  sourceHandle := sh, targetHandle := th, label := "" }] := by
    simp only [onConnect]
    cases hfind : edges.find? (fun e =>
        (some e.source == some s) && (some e.target == some t) &&
        (some e.sourceHandle == some sh) && (some e.targetHandle == some th)) with
    | some e' =>
        have hmem := List.mem_of_find?_eq_some hfind
        have hp := List.find?_some hfind
        exact absurd ((connFind_iff s t sh th e').mp hp) (hnodup e' hmem)
    | none =>
        obtain ⟨sn, hsn, hsid⟩ := hs
        obtain ⟨tn, htn, htid⟩ := ht
        have hfs : (nodes.find? (fun n => n.id == s)).isSome :=
          List.find?_isSome.mpr ⟨sn, hsn, by simpa using hsid⟩
        cases hfs' : nodes.find? (fun n => n.id == s) with
        | none => rw [hfs'] at hfs; exact absurd hfs (by simp)
        | some sn' =>
          have hft : (nodes.find? (fun n => n.id == t)).isSome :=
            List.find?_isSome.mpr ⟨tn, htn, by simpa using htid⟩
          cases hft' : nodes.find? (fun n => n.id == t) with
          | none => rw [hft'] at hft; exact absurd hft (by simp)
          | some tn' =>
            simp only [rfAddEdge]
            rw [if_neg]
            · rw [hfs', hft']
            · intro hany
              rw [List.any_eq_true] at hany
              obtain ⟨x, hx, hxx⟩ := hany
              simp only [Bool.and_eq_true, beq_iff_eq] at hxx
              exact hnodup x hx ⟨hxx.1.1.1, hxx.1.1.2, hxx.1.2, hxx.2⟩
  rw [hfirst]
  have hsecond := hnoop nodes
    (edges ++ [{ id := "edge-" ++ ms1, source := s, target := t,
                 sourceHandle := sh, targetHandle := th, label := "" }]) s t sh th norm2 ms2
    ⟨_, List.mem_append_right _ (List.mem_singleton_self _), rfl, rfl, rfl, rfl⟩
  rw [hsecond, List.filter_append, hflt]
  simp [connMatches]

/-- C5 witness: adding the same fully specified connection twice on the
two-node demo graph leaves exactly one matching edge. -/
theorem claim_C5_witness :
    ((onConnect [demoNode, demoNodeB]
        (onConnect [demoNode, demoNodeB] [] ⟨some "n1", some "n2", some "right", some "left"⟩ 300 "1")
        ⟨some "n1", some "n2", some "right", some "left"⟩ 300 "2").filter
      (connMatches "n1" "n2" "right" "left")).length = 1 :=
  claim_C5_duplicate_connection.2 [demoNode, demoNodeB] [] "n1" "n2" "right" "left" 300 300 "1" "2"
    ⟨demoNode, by decide, by decide⟩ ⟨demoNodeB, by simp, by decide⟩ (by decide)

/-- Closed form of the best-dot-product scan: the fold over
`right, left, bottom, top` with strict improvement amounts to this decision
tree (the `init` value is immediately overridden by the first candidate,
whose score beats `-Infinity`). -/
theorem pickAnchor_eq (init : String) (score : ℚ × ℚ → ℚ) :
    pickAnchor init score =
      (if score (1, 0) < score (-1, 0) then
        (if score (-1, 0) < score (0, 1) then
          (if score (0, 1) < score (0, -1) then "top" else "bottom")
        else (if score (-1, 0) < score (0, -1) then "top" else "left"))
      else
        (if score (1, 0) < score (0, 1) then
          (if score (0, 1) < score (0, -1) then "top" else "bottom")
        else (if score (1, 0) < score (0, -1) then "top" else "right"))) := by
  by_cases h1 : score (1, 0) < score (-1, 0)
  · by_cases h2 : score (-1, 0) < score (0, 1)
    · by_cases h3 : score (0, 1) < score (0, -1) <;>
        simp [pickAnchor, anchorDirs, h1, h2, h3]
    · by_cases h3 : score (-1, 0) < score (0, -1) <;>
        simp [pickAnchor, anchorDirs, h1, h2, h3]
  · by_cases h2 : score (1, 0) < score (0, 1)
    · by_cases h3 : score (0, 1) < score (0, -1) <;>
        simp [pickAnchor, anchorDirs, h1, h2, h3]
    · by_cases h3 : score (1, 0) < score (0, -1) <;>
        simp [pickAnchor, anchorDirs, h1, h2, h3]

/-- C8: with no anchors specified, `onConnect` picks the source anchor
maximizing the dot product of its unit direction with `(ux, uy)` and the
target anchor maximizing the dot product with `(-ux, -uy)`; the new edge is
built with exactly those anchors, computed on the unit vector between the two
node centers; and connecting `A (0,0) → B (300,0)` selects `right`/`left`
(there `distance = 300` since `300² = (300-0)² + (0-0)²`). -/
theorem claim_C8_anchor_choice :
    (∀ ux uy : ℚ,
      (∀ v ∈ anchorDirs,
        ux * (anchorVec (selectSourceAnchor ux uy)).1 +
          uy * (anchorVec (selectSourceAnchor ux uy)).2 ≥ ux * v.2.1 + uy * v.2.2) ∧
      (∀ v ∈ anchorDirs,
        -ux * (anchorVec (selectTargetAnchor ux uy)).1 +
          -uy * (anchorVec (selectTargetAnchor ux uy)).2 ≥ -ux * v.2.1 + -uy * v.2.2)) ∧
    (∀ (nodes : List FlowNode) (edges : List Edge) (s t : String) (sn tn : FlowNode)
        (norm : ℚ) (nowMs : String),
      nodes.find? (fun n => n.id == s) = some sn →
      nodes.find? (fun n => n.id == t) = some tn →
      onConnect nodes edges ⟨some s, some t, none, none⟩ norm nowMs =
        rfAddEdge
          { id := "edge-" ++ nowMs, source := s, target := t,
            sourceHandle := selectSourceAnchor ((tn.position.1 - sn.position.1) / norm)
              ((tn.position.2 - sn.position.2) / norm),
            targetHandle := selectTargetAnchor ((tn.position.1 - sn.position.1) / norm)
              ((tn.position.2 - sn.position.2) / norm),
            label := "" } edges) ∧
    ((300 : ℚ) * 300 = (300 - 0) * (300 - 0) + (0 - 0) * (0 - 0) ∧
      onConnect [demoNode, demoNodeB] [] ⟨some "n1", some "n2", none, none⟩ 300 "1" =
        [{ id := "edge-1", source := "n1", target := "n2", sourceHandle := "right",
           targetHandle := "left", label := "" }]) := by
  have hpath : ∀ (nodes : List FlowNode) (edges : List Edge) (s t : String) (sn tn : FlowNode)
      (norm : ℚ) (nowMs : String),
      nodes.find? (fun n => n.id == s) = some sn →
      nodes.find? (fun n => n.id == t) = some tn →
      onConnect nodes edges ⟨some s, some t, none, none⟩ norm nowMs =
        rfAddEdge
          { id := "edge-" ++ nowMs, source := s, target := t,
            sourceHandle := selectSourceAnchor ((tn.position.1 - sn.position.1) / norm)
              ((tn.position.2 - sn.position.2) / norm),
            targetHandle := selectTargetAnchor ((tn.position.1 - sn.position.1) / norm)
              ((tn.position.2 - sn.position.2) / norm),
            label := "" } edges := by
    intro nodes edges s t sn tn norm nowMs hfs hft
    have hdup : edges.find? (fun e =>
        (some e.source == some s) && (some e.target == some t) &&
        (some e.sourceHandle == (none : Option String)) &&
        (some e.targetHandle == (none : Option String))) = none := by
      rw [List.find?_eq_none]
      intro e he
      simp
    simp only [onConnect, hdup, hfs, hft]
  refine ⟨?_, hpath, by norm_num, ?_⟩
  · intro ux uy
    constructor
    · intro v hv
      simp only [anchorDirs, List.mem_cons, List.not_mem_nil, or_false] at hv
      unfold selectSourceAnchor
      rw [pickAnchor_eq]
      split_ifs <;>
        rcases hv with rfl | rfl | rfl | rfl <;>
        simp_all [anchorVec] <;> linarith
    · intro v hv
      simp only [anchorDirs, List.mem_cons, List.not_mem_nil, or_false] at hv
      unfold selectTargetAnchor
      rw [pickAnchor_eq]
      split_ifs <;>
        rcases hv with rfl | rfl | rfl | rfl <;>
        simp_all [anchorVec] <;> linarith
  · rw [hpath [demoNode, demoNodeB] [] "n1" "n2" demoNode demoNodeB 300 "1" rfl rfl]
    have hsrc : selectSourceAnchor ((demoNodeB.position.1 - demoNode.position.1) / 300)
        ((demoNodeB.position.2 - demoNode.position.2) / 300) = "right" := by
      show selectSourceAnchor (((300 : ℚ) - 0) / 300) (((0 : ℚ) - 0) / 300) = "right"
      unfold selectSourceAnchor
      rw [pickAnchor_eq]
      norm_num
    have htgt : selectTargetAnchor ((demoNodeB.position.1 - demoNode.position.1) / 300)
        ((demoNodeB.position.2 - demoNode.position.2) / 300) = "left" := by
      show selectTargetAnchor (((300 : ℚ) - 0) / 300) (((0 : ℚ) - 0) / 300) = "left"
      unfold selectTargetAnchor
      rw [pickAnchor_eq]
      norm_num
    rw [hsrc, htgt]
    simp [rfAddEdge]

/-- Concrete instantiation of `claim_C8_anchor_choice`: the unit vector
`(1, 0)` (A at the origin, B at `(300, 0)`). -/
theorem claim_C8_witness :
    (1 * (anchorVec (selectSourceAnchor 1 0)).1 + 0 * (anchorVec (selectSourceAnchor 1 0)).2 ≥
      1 * (1 : ℚ) + 0 * 0) ∧
    (onConnect [demoNode, demoNodeB] [] ⟨some "n1", some "n2", none, none⟩ 300 "1" =
      rfAddEdge
        { id := "edge-1", source := "n1", target := "n2",
          sourceHandle := selectSourceAnchor ((demoNodeB.position.1 - demoNode.position.1) / 300)
            ((demoNodeB.position.2 - demoNode.position.2) / 300),
          targetHandle := selectTargetAnchor ((demoNodeB.position.1 - demoNode.position.1) / 300)
            ((demoNodeB.position.2 - demoNode.position.2) / 300),
          label := "" } []) :=
  ⟨(claim_C8_anchor_choice.1 1 0).1 ("right", (1, 0)) (by simp [anchorDirs]),
   claim_C8_anchor_choice.2.1 [demoNode, demoNodeB] [] "n1" "n2" demoNode demoNodeB 300 "1"
     rfl rfl⟩

/-! ## Connect gesture: `onConnectStart` / `onConnectEnd`

`NODE_WIDTH = 112`, `NODE_HEIGHT = 56`; `HORIZONTAL_OFFSET = NODE_WIDTH *
1.5 = 168`, `VERTICAL_OFFSET = NODE_HEIGHT * 2 = 112` (lines 1322-1323). -/

theorem onConnectStartFn_nodes (st : GestureState) (i : String) (h : Option String) :
    (onConnectStartFn st i h).nodes = st.nodes := by
  unfold onConnectStartFn
  split <;> rfl

/-- C9: a connect gesture released over empty canvas with a recorded anchor
creates exactly one new node (offset from the source by the anchor's side)
plus one new edge from that anchor to the new node's mirrored anchor, and
selects the new node; a gesture with no recorded anchor is a no-op; and a
gesture that completed onto a target node (so `onConnect` ran and set the
success flag) never creates a node. -/
theorem claim_C9_connect_end :
    (∀ (st : GestureState) (sn : FlowNode) (h : String) (pos : ℚ × ℚ)
        (nowMs nowIso currentDate : String),
      st.connectionSuccessful = false → st.selected = some sn →
      st.connectingHandle = some h →
      (h = "top" ∨ h = "right" ∨ h = "bottom" ∨ h = "left") →
      onConnectEndFn st true pos nowMs nowIso currentDate =
        { st with
          nodes := st.nodes ++
            [newTaskNode ("node-" ++ nowMs) (anchorOffsetPos sn.position h) nowIso currentDate]
          edges := st.edges ++
            [{ id := "edge-" ++ nowMs, source := sn.id, target := "node-" ++ nowMs,
               sourceHandle := h, targetHandle := mirrorAnchor h, label := "" }]
          selected := some
            (newTaskNode ("node-" ++ nowMs) (anchorOffsetPos sn.position h) nowIso currentDate)
          connectingHandle := none
          connectionSuccessful := false }) ∧
    (∀ (st : GestureState) (targetIsPane : Bool) (pos : ℚ × ℚ)
        (nowMs nowIso currentDate : String),
      st.connectionSuccessful = false → st.connectingHandle = none →
      (onConnectEndFn st targetIsPane pos nowMs nowIso currentDate).nodes = st.nodes ∧
      (onConnectEndFn st targetIsPane pos nowMs nowIso currentDate).edges = st.edges ∧
      (onConnectEndFn st targetIsPane pos nowMs nowIso currentDate).selected = st.selected) ∧
    (∀ (st : GestureState) (startNodeId : String) (startHandle : Option String)
        (params : Connection) (targetIsPane : Bool) (pos : ℚ × ℚ) (norm : ℚ)
        (nowMs nowIso currentDate : String),
      (runGesture st startNodeId startHandle (some params) targetIsPane pos norm
        nowMs nowIso currentDate).nodes = st.nodes) := by
  refine ⟨?_, ?_, ?_⟩
  · intro st sn h pos nowMs nowIso currentDate hflag hsel hch hdisj
    rcases hdisj with rfl | rfl | rfl | rfl <;>
      simp [onConnectEndFn, hflag, hsel, hch, anchorOffsetPos, mirrorAnchor]
  · intro st targetIsPane pos nowMs nowIso currentDate hflag hch
    cases targetIsPane with
    | false => simp [onConnectEndFn, hflag]
    | true =>
        cases hsel : st.selected with
        | none => simp [onConnectEndFn, hflag, hsel]
        | some sn => simp [onConnectEndFn, hflag, hsel, hch]
  · intro st startNodeId startHandle params targetIsPane pos norm nowMs nowIso currentDate
    simp [runGesture, onConnectFn, onConnectEndFn, onConnectStartFn_nodes]

/-- Concrete instantiation of `claim_C9_connect_end` on all three parts. -/
theorem claim_C9_witness :
    (onConnectEndFn demoGesture true (0, 0) "5" "2024-06-01T00:00:00Z" "2024-06-01" =
      { demoGesture with
        nodes := demoGesture.nodes ++
          [newTaskNode "node-5" (anchorOffsetPos demoNode.position "right")
            "2024-06-01T00:00:00Z" "2024-06-01"]
        edges := demoGesture.edges ++
          [{ id := "edge-5", source := demoNode.id, target := "node-5",
             sourceHandle := "right", targetHandle := mirrorAnchor "right", label := "" }]
        selected := some (newTaskNode "node-5" (anchorOffsetPos demoNode.position "right")
          "2024-06-01T00:00:00Z" "2024-06-01")
        connectingHandle := none
        connectionSuccessful := false }) ∧
    ((onConnectEndFn { demoGesture with connectingHandle := none } true (0, 0) "5"
        "2024-06-01T00:00:00Z" "2024-06-01").nodes = [demoNode]) ∧
    ((runGesture { demoGesture with selected := none, connectingHandle := none } "n1"
        (some "right") (some ⟨some "n1", some "n1", some "right", some "left"⟩) true (0, 0) 1
        "6" "i" "d").nodes = [demoNode]) :=
  ⟨claim_C9_connect_end.1 demoGesture demoNode "right" (0, 0) "5" "2024-06-01T00:00:00Z"
      "2024-06-01" rfl rfl rfl (Or.inr (Or.inl rfl)),
   (claim_C9_connect_end.2.1 { demoGesture with connectingHandle := none } true (0, 0) "5"
      "2024-06-01T00:00:00Z" "2024-06-01" rfl rfl).1,
   claim_C9_connect_end.2.2 { demoGesture with selected := none, connectingHandle := none }
      "n1" (some "right") ⟨some "n1", some "n1", some "right", some "left"⟩ true (0, 0) 1
      "6" "i" "d"⟩

/-! ## Tree Serializer: export

`getMindMapData` (part_003 lines 973-1033) and `handleSave` (1036-1101).
`handleSave` builds the persisted document that `saveToFile` writes: a map of
per-id node objects, a `children` push per edge (both endpoints must exist),
`edgeLabel` written onto the shared target object for nonempty labels, and
the roots (nodes that are no edge's target) as the children of one theme. -/

/-- The export loop pushes, in edge order, the target of every edge with
both endpoints present onto its source's child list. -/
theorem foldl_exportStep_childIds (ids : List String) (es : List Edge) (st0 : ExportStore)
    (i : String) :
    (es.foldl (exportStep ids) st0).childIds i =
      st0.childIds i ++
        (es.filter (fun e => decide (e.source = i ∧ e.source ∈ ids ∧ e.target ∈ ids))).map
          (·.target) := by
  induction es generalizing st0 with
  | nil => simp
  | cons e es ih =>
      rw [List.foldl_cons, ih]
      by_cases hmem : e.source ∈ ids ∧ e.target ∈ ids
      · by_cases hsrc : e.source = i
        · have hstep : (exportStep ids st0 e).childIds i = st0.childIds i ++ [e.target] := by
            simp only [exportStep, if_pos hmem]
            split
            · rfl
            · next hcontra => exact absurd hsrc.symm hcontra
          rw [hstep, List.filter_cons_of_pos
            (by simp only [decide_eq_true_eq]; exact ⟨hsrc, hmem.1, hmem.2⟩)]
          simp
        · have hstep : (exportStep ids st0 e).childIds i = st0.childIds i := by
            simp only [exportStep, if_pos hmem]
            split
            · next hcontra => exact absurd hcontra.symm hsrc
            · rfl
          rw [hstep, List.filter_cons_of_neg
            (by simp only [decide_eq_true_eq]; exact fun hc => hsrc hc.1)]
      · have hstep : exportStep ids st0 e = st0 := by
          simp only [exportStep, if_neg hmem]
        rw [hstep, List.filter_cons_of_neg
          (by simp only [decide_eq_true_eq]; exact fun hc => hmem ⟨hc.2.1, hc.2.2⟩)]

/-- The stored `edgeLabel` of a node is the label of the last edge in edge
order that targets it with both endpoints present and a nonempty label. -/
theorem foldl_exportStep_label (ids : List String) (es : List Edge) (st0 : ExportStore)
    (i : String) :
    (es.foldl (exportStep ids) st0).label i =
      match es.reverse.find? (fun e => decide (e.target = i ∧ e.source ∈ ids ∧
          e.target ∈ ids ∧ e.label ≠ "")) with
      | some e => some e.label
      | none => st0.label i := by
  induction es generalizing st0 with
  | nil => simp
  | cons e es ih =>
      rw [List.foldl_cons, ih, List.reverse_cons, List.find?_append]
      cases hfind : es.reverse.find? (fun e => decide (e.target = i ∧ e.source ∈ ids ∧
          e.target ∈ ids ∧ e.label ≠ "")) with
      | some x => simp
      | none =>
          simp only [Option.none_or]
          by_cases hp : e.target = i ∧ e.source ∈ ids ∧ e.target ∈ ids ∧ e.label ≠ ""
          · rw [List.find?_cons_of_pos _ (by simpa using hp)]
            have hmm : e.source ∈ ids ∧ e.target ∈ ids := ⟨hp.2.1, hp.2.2.1⟩
            have hstep : (exportStep ids st0 e).label i = some e.label := by
              unfold exportStep
              rw [if_pos hmm, if_neg hp.2.2.2]
              simp only []
              rw [if_pos hp.1.symm]
            rw [hstep]
          · rw [List.find?_cons_of_neg _ (by simpa using hp)]
            simp only [List.find?_nil]
            by_cases hmem : e.source ∈ ids ∧ e.target ∈ ids
            · by_cases hlab : e.label = ""
              · have hstep : (exportStep ids st0 e).label i = st0.label i := by
                  unfold exportStep
                  rw [if_pos hmem, if_pos hlab]
                rw [hstep]
              · have hne : ¬ i = e.target := fun hh => hp ⟨hh.symm, hmem.1, hmem.2, hlab⟩
                have hstep : (exportStep ids st0 e).label i = st0.label i := by
                  unfold exportStep
                  rw [if_pos hmem, if_neg hlab]
                  simp only []
                  rw [if_neg hne]
                rw [hstep]
            · have hstep : exportStep ids st0 e = st0 := by
                unfold exportStep
                rw [if_neg hmem]
              rw [hstep]

theorem map_filterMap_of_all {α β γ : Type} (l : List α) (f : α → Option β) (k : β → γ)
    (m : α → γ) (h : ∀ x ∈ l, ∃ y, f x = some y ∧ k y = m x) :
    (l.filterMap f).map k = l.map m := by
  induction l with
  | nil => rfl
  | cons x xs ih =>
      obtain ⟨y, hy, hky⟩ := h x (List.mem_cons_self x xs)
      rw [List.filterMap_cons, hy, List.map_cons, List.map_cons, hky,
        ih (fun z hz => h z (List.mem_cons_of_mem x hz))]

theorem findLastNode_of_mem (g : Graph) (i : String) (h : i ∈ graphIds g) :
    ∃ n, findLastNode g i = some n ∧ n.id = i := by
  obtain ⟨n, hn, hid⟩ := List.mem_map.mp h
  have hsome : (findLastNode g i).isSome := by
    apply List.find?_isSome.mpr
    exact ⟨n, List.mem_reverse.mpr hn, by simpa using hid⟩
  cases hfind : findLastNode g i with
  | none => rw [hfind] at hsome; exact absurd hsome (by simp)
  | some m =>
      refine ⟨m, rfl, ?_⟩
      have := List.find?_some hfind
      simpa using this

/-- Unfolding `resolveNode` on a present id. -/
theorem resolveNode_of_mem (g : Graph) (st : ExportStore) (now : String) (fuel : Nat)
    (i : String) (h : i ∈ graphIds g) :
    ∃ n, findLastNode g i = some n ∧ n.id = i ∧
      resolveNode g st now (fuel + 1) i =
        some (.mk i (jsStr n.nodeData.title "") (some (jsStrOpt n.nodeData.description ""))
          n.nodeData.priority n.nodeData.status (some (jsStr n.nodeData.created_at now))
          n.nodeData.start_date n.nodeData.due_date none (st.label i)
          ((st.childIds i).filterMap (resolveNode g st now fuel))) := by
  obtain ⟨n, hn, hid⟩ := findLastNode_of_mem g i h
  refine ⟨n, hn, hid, ?_⟩
  rw [resolveNode, hn]

/-- Roots have no incoming edge at all. -/
theorem rootNodes_no_incoming (g : Graph) (n : FlowNode) (h : n ∈ rootNodes g) :
    n ∈ g.nodes ∧ ∀ e ∈ g.edges, e.target ≠ n.id := by
  obtain ⟨hmem, hfilt⟩ := List.mem_filter.mp h
  refine ⟨hmem, fun e he => ?_⟩
  simp only [Bool.not_eq_eq_eq_not, Bool.not_true, List.any_eq_false] at hfilt
  simpa using hfilt e he

/-- C6 (amended): the top-level children of the single synthesized theme are
exactly the nodes that are not the target of any edge, in node order; the
`edgeLabel` stored on a node object is the label of the *last* edge in edge
order targeting it with a nonempty label (both endpoints present) — an
earlier labelled edge into the same node is overwritten; and a root's copy
in the document never carries an `edgeLabel`. -/
theorem claim_C6_export_roots_labels :
    (∀ (g : Graph) (cid cname now : String) (fuel : Nat),
      (exportDocument g cid cname now (fuel + 1)).mindMaps.map
          (fun th => th.children.map MindMapNode.id) =
        [(rootNodes g).map (·.id)]) ∧
    (∀ (g : Graph) (i : String),
      (exportStore g).label i =
        match g.edges.reverse.find? (fun e => decide (e.target = i ∧ e.source ∈ graphIds g ∧
            e.target ∈ graphIds g ∧ e.label ≠ "")) with
        | some e => some e.label
        | none => none) ∧
    (∀ (g : Graph) (cid cname now : String) (fuel : Nat),
      ((exportDocument g cid cname now fuel).mindMaps.all
        (fun th => th.children.all (fun t => t.edgeLabel == none))) = true) := by
  have hlabel : ∀ (g : Graph) (i : String),
      (exportStore g).label i =
        match g.edges.reverse.find? (fun e => decide (e.target = i ∧ e.source ∈ graphIds g ∧
            e.target ∈ graphIds g ∧ e.label ≠ "")) with
        | some e => some e.label
        | none => none := by
    intro g i
    rw [exportStore, foldl_exportStep_label]
  refine ⟨?_, hlabel, ?_⟩
  · intro g cid cname now fuel
    simp only [exportDocument, List.map_cons, List.map_nil]
    congr 1
    apply map_filterMap_of_all
    intro n hn
    have hmem : n.id ∈ graphIds g :=
      List.mem_map.mpr ⟨n, (List.mem_filter.mp hn).1, rfl⟩
    obtain ⟨m, _, _, hres⟩ := resolveNode_of_mem g (exportStore g) now fuel n.id hmem
    exact ⟨_, hres, rfl⟩
  · intro g cid cname now fuel
    rw [List.all_eq_true]
    intro th hth
    rw [List.all_eq_true]
    intro t ht
    simp only [beq_iff_eq]
    simp only [exportDocument, List.mem_cons, List.not_mem_nil, or_false] at hth
    subst hth
    simp only [] at ht
    obtain ⟨n, hn, hres⟩ := List.mem_filterMap.mp ht
    obtain ⟨hnode, hnoinc⟩ := rootNodes_no_incoming g n hn
    cases fuel with
    | zero => simp [resolveNode] at hres
    | succ fuel =>
        have hmem : n.id ∈ graphIds g := List.mem_map.mpr ⟨n, hnode, rfl⟩
        obtain ⟨m, hm, hmid, hres'⟩ := resolveNode_of_mem g (exportStore g) now fuel n.id hmem
        rw [hres'] at hres
        have ht' := Option.some.inj hres
        rw [← ht']
        show (exportStore g).label n.id = none
        rw [hlabel]
        have hnone : g.edges.reverse.find? (fun e => decide (e.target = n.id ∧
            e.source ∈ graphIds g ∧ e.target ∈ graphIds g ∧ e.label ≠ "")) = none := by
          rw [List.find?_eq_none]
          intro e he
          simp only [decide_eq_true_eq, not_and]
          intro htg
          exact absurd htg (hnoinc e (List.mem_reverse.mp he))
        rw [hnone]

/-- C6 counterexample: the edge `X → Z` carries the nonempty label `"a"`,
but the exported document stores `"b"` (the label of the later edge
`Y → Z`) as `Z`'s `edgeLabel` — including on the copy of `Z` under `X` —
so it is not true that every nonempty edge label is stored as the edgeLabel
of that edge's target node. -/
theorem claim_C6_counterexample :
    ({ id := "e1", source := "X", target := "Z", sourceHandle := "right",
       targetHandle := "left", label := "a" } : Edge) ∈ gC6.edges ∧
    ("a" : String) ≠ "" ∧
    (exportStore gC6).label "Z" = some "b" ∧
    (some ("b" : String)) ≠ some "a" ∧
    (exportDocument gC6 "c" "n" "now" 3).mindMaps.map
        (fun th => th.children.map
          (fun t => (t.id, t.children.map (fun c => (c.id, c.edgeLabel))))) =
      [[("X", [("Z", some "b")]), ("Y", [("Z", some "b")])]] := by
  refine ⟨by decide, by decide, by decide, by decide, by decide⟩

/-- C7 (amended): building the document completes on every graph, cycles and
multiple parents included (the export loops are plain folds over finite
lists, and the document always holds exactly one theme); and for every edge,
the resolved copy of its source contains a by-value copy of the target — so
a multi-parent node is duplicated into each parent's children list — but
every such copy carries the one stored `edgeLabel` of the target (the label
written last), not necessarily the label of the edge to that particular
parent. -/
theorem claim_C7_export_duplication :
    (∀ (g : Graph) (cid cname now : String) (fuel : Nat),
      (exportDocument g cid cname now fuel).mindMaps.length = 1) ∧
    (∀ (g : Graph) (e : Edge) (now : String) (fuel : Nat),
      e ∈ g.edges → e.source ∈ graphIds g → e.target ∈ graphIds g →
      (resolveNode g (exportStore g) now (fuel + 2) e.source).isSome = true ∧
      1 ≤ ((resolveChildren g (exportStore g) now (fuel + 2) e.source).filter
            (fun c => c.id == e.target &&
              c.edgeLabel == (exportStore g).label e.target)).length) := by
  constructor
  · intro g cid cname now fuel
    rfl
  · intro g e now fuel he hsrc htgt
    obtain ⟨n, hn, hnid, hres⟩ := resolveNode_of_mem g (exportStore g) now (fuel + 1)
      e.source hsrc
    obtain ⟨m, hm, hmid, hrest⟩ := resolveNode_of_mem g (exportStore g) now fuel
      e.target htgt
    refine ⟨by rw [hres]; rfl, ?_⟩
    have hchild : e.target ∈ (exportStore g).childIds e.source := by
      rw [exportStore, foldl_exportStep_childIds]
      refine List.mem_append_right _ (List.mem_map.mpr ⟨e, ?_, rfl⟩)
      exact List.mem_filter.mpr ⟨he, by simp [hsrc, htgt]⟩
    have hmemc : (MindMapNode.mk e.target (jsStr m.nodeData.title "")
        (some (jsStrOpt m.nodeData.description "")) m.nodeData.priority m.nodeData.status
        (some (jsStr m.nodeData.created_at now)) m.nodeData.start_date m.nodeData.due_date
        none ((exportStore g).label e.target)
        (((exportStore g).childIds e.target).filterMap
          (resolveNode g (exportStore g) now fuel))) ∈
        resolveChildren g (exportStore g) now (fuel + 2) e.source := by
      rw [resolveChildren, hres]
      exact List.mem_filterMap.mpr ⟨e.target, hchild, hrest⟩
    apply List.length_pos_of_mem
    refine List.mem_filter.mpr ⟨hmemc, ?_⟩
    simp [MindMapNode.id, MindMapNode.edgeLabel]

/-- C7 counterexample: `R` has two incoming edges labelled `"first"`
(from `P`) and `"second"` (from `Q`); in the exported document both
duplicates of `R` carry `"second"`, so the duplicate under `P` does *not*
carry the label of the edge that connects it to `P`. -/
theorem claim_C7_counterexample :
    ({ id := "f1", source := "P", target := "R", sourceHandle := "right",
       targetHandle := "left", label := "first" } : Edge) ∈ gC7.edges ∧
    (exportDocument gC7 "c" "n" "now" 3).mindMaps.map
        (fun th => th.children.map
          (fun t => (t.id, t.children.map (fun c => (c.id, c.edgeLabel))))) =
      [[("P", [("R", some "second")]), ("Q", [("R", some "second")])]] ∧
    (some ("second" : String)) ≠ some "first" := by
  refine ⟨by decide, by decide, by decide⟩

/-- Concrete instantiation of `claim_C7_export_duplication` on the edge
`P → R` of `gC7`. -/
theorem claim_C7_witness :
    (resolveNode gC7 (exportStore gC7) "now" 3 "P").isSome = true ∧
    1 ≤ ((resolveChildren gC7 (exportStore gC7) "now" 3 "P").filter
          (fun c => c.id == "R" && c.edgeLabel == (exportStore gC7).label "R")).length :=
  claim_C7_export_duplication.2 gC7
    { id := "f1", source := "P", target := "R", sourceHandle := "right",
      targetHandle := "left", label := "first" } "now" 1
    (by decide) (by decide) (by decide)

/-! ## Tree Serializer: import

`loadFromFile` (`src/utils/fileUtils.ts` lines 142-197) and `handleLoad`
(part_003 lines 1831-1969). -/

/-- C2: a malformed document — the `mindMaps` key missing, falsy, or not an
array — makes the import fail with the `MalformedDocumentError` outcome
before any mutation: the node and edge collections after the call are the
very ones from before it.  In particular `{ foo: 1 }` is rejected. -/
theorem claim_C2_malformed_import :
    (∀ (st : Graph) (ctx : ImportCtx) (j : Json) (decode : Json → MindMapData),
      loadValidate j = none →
      handleLoadModel st ctx j decode = (st, .malformedDocument)) ∧
    (∀ (fields : List (String × Json)),
      jsonLookup fields "mindMaps" = none → loadValidate (.obj fields) = none) ∧
    (∀ (fields : List (String × Json)) (v : Json),
      jsonLookup fields "mindMaps" = some v → isArrayJson v = false →
      loadValidate (.obj fields) = none) ∧
    (∀ (st : Graph) (ctx : ImportCtx) (decode : Json → MindMapData),
      handleLoadModel st ctx (.obj [("foo", .num 1)]) decode = (st, .malformedDocument)) := by
  refine ⟨?_, ?_, ?_, ?_⟩
  · intro st ctx j decode hval
    simp only [handleLoadModel, hval]
  · intro fields hnone
    simp only [loadValidate, hnone]
  · intro fields v hv harr
    simp [loadValidate, hv, harr]
  · intro st ctx decode
    rfl

/-- Concrete instantiation of `claim_C2_malformed_import` on `{ foo: 1 }`
over a nonempty graph. -/
theorem claim_C2_witness :
    handleLoadModel { nodes := [demoNode], edges := [] }
        { currentDate := "2024-06-02", nowIso := "2024-06-02T00:00:00Z", nowMs := "0",
          fresh := fun _ => "fresh" }
        (.obj [("foo", .num 1)]) (fun _ => { mindMaps := [] }) =
      ({ nodes := [demoNode], edges := [] }, .malformedDocument) :=
  claim_C2_malformed_import.1 { nodes := [demoNode], edges := [] }
    { currentDate := "2024-06-02", nowIso := "2024-06-02T00:00:00Z", nowMs := "0",
      fresh := fun _ => "fresh" }
    (.obj [("foo", .num 1)]) (fun _ => { mindMaps := [] }) rfl

mutual
theorem processNode_dates (ctx : ImportCtx) (t : MindMapNode) (parent : Option String)
    (pos : ℚ × ℚ) (k : Nat) :
    ∀ fn ∈ (processNode ctx t parent pos k).1,
      fn.nodeData.start_date.isSome ∧ fn.nodeData.due_date.isSome := by
  intro fn hfn
  rw [processNode.eq_def] at hfn
  simp only [List.mem_cons] at hfn
  rcases hfn with rfl | hfn
  · exact ⟨by simp, by simp⟩
  · exact processChildren_dates ctx t.children
      (if t.id = "" then ctx.fresh k else t.id) pos ((t.children.length : ℚ)) 0
      (if t.id = "" then (if t.id = "" then k + 1 else k) + 1 else if t.id = "" then k + 1 else k)
      fn hfn
termination_by sizeOf t
decreasing_by
  simp_wf
  cases t
  simp [MindMapNode.children]
  try omega

theorem processChildren_dates (ctx : ImportCtx) (ts : List MindMapNode) (parentId : String)
    (base : ℚ × ℚ) (total : ℚ) (idx : Nat) (k : Nat) :
    ∀ fn ∈ (processChildren ctx ts parentId base total idx k).1,
      fn.nodeData.start_date.isSome ∧ fn.nodeData.due_date.isSome := by
  intro fn hfn
  match ts with
  | [] =>
      rw [processChildren] at hfn
      exact absurd hfn (List.not_mem_nil fn)
  | t :: rest =>
      rw [processChildren.eq_def] at hfn
      simp only [List.mem_append] at hfn
      rcases hfn with hfn | hfn
      · exact processNode_dates ctx t (some parentId)
          (base.1 + 168, base.2 + ((idx : ℚ) - total / 2) * 84) k fn hfn
      · exact processChildren_dates ctx rest parentId base total (idx + 1)
          (processNode ctx t (some parentId)
            (base.1 + 168, base.2 + ((idx : ℚ) - total / 2) * 84) k).2.2 fn hfn
termination_by sizeOf ts
decreasing_by
  · simp_wf
    try simp
    try omega
  · simp_wf
    try simp
    try omega
end

theorem processRoots_dates (ctx : ImportCtx) (ts : List MindMapNode) (idx k : Nat) :
    ∀ fn ∈ (processRoots ctx ts idx k).1,
      fn.nodeData.start_date.isSome ∧ fn.nodeData.due_date.isSome := by
  induction ts generalizing idx k with
  | nil =>
      intro fn hfn
      rw [processRoots] at hfn
      exact absurd hfn (List.not_mem_nil fn)
  | cons t rest ih =>
      intro fn hfn
      rw [processRoots.eq_def] at hfn
      simp only [List.mem_append] at hfn
      rcases hfn with hfn | hfn
      · exact processNode_dates ctx t none (100, 100 + (idx : ℚ) * 112) k fn hfn
      · exact ih (idx + 1) _ fn hfn

/-- C10: on import, a tree node with no `start_date` (or `due_date`) is
given the current date for that field, a missing `created_at` is given the
import-time timestamp, and every node of an imported graph ends up with both
dates present — the absence of a date field is never preserved across a
save/load cycle. -/
theorem claim_C10_import_date_fill :
    (∀ (ctx : ImportCtx) (t : MindMapNode) (parent : Option String) (pos : ℚ × ℚ) (k : Nat),
      ((processNode ctx t parent pos k).1.head?.map
          (fun fn => (fn.nodeData.start_date, fn.nodeData.due_date, fn.nodeData.created_at))) =
        some (some (jsStrOpt t.start_date ctx.currentDate),
          some (jsStrOpt t.due_date ctx.currentDate), jsStrOpt t.created_at ctx.nowIso)) ∧
    (∀ (ctx : ImportCtx) (t : MindMapNode) (parent : Option String) (pos : ℚ × ℚ) (k : Nat),
      t.start_date = none →
      ((processNode ctx t parent pos k).1.head?.map (fun fn => fn.nodeData.start_date)) =
        some (some ctx.currentDate)) ∧
    (∀ (ctx : ImportCtx) (t : MindMapNode) (parent : Option String) (pos : ℚ × ℚ) (k : Nat),
      t.due_date = none →
      ((processNode ctx t parent pos k).1.head?.map (fun fn => fn.nodeData.due_date)) =
        some (some ctx.currentDate)) ∧
    (∀ (ctx : ImportCtx) (t : MindMapNode) (parent : Option String) (pos : ℚ × ℚ) (k : Nat),
      t.created_at = none →
      ((processNode ctx t parent pos k).1.head?.map (fun fn => fn.nodeData.created_at)) =
        some ctx.nowIso) ∧
    (∀ (ctx : ImportCtx) (d : MindMapData) (g : Graph),
      importGraph ctx d = some g →
      (g.nodes.all (fun fn => fn.nodeData.start_date.isSome &&
        fn.nodeData.due_date.isSome)) = true) := by
  have hhead : ∀ (ctx : ImportCtx) (t : MindMapNode) (parent : Option String) (pos : ℚ × ℚ)
      (k : Nat),
      ((processNode ctx t parent pos k).1.head?.map
          (fun fn => (fn.nodeData.start_date, fn.nodeData.due_date, fn.nodeData.created_at))) =
        some (some (jsStrOpt t.start_date ctx.currentDate),
          some (jsStrOpt t.due_date ctx.currentDate), jsStrOpt t.created_at ctx.nowIso) := by
    intro ctx t parent pos k
    rw [processNode.eq_def]
    rfl
  refine ⟨hhead, ?_, ?_, ?_, ?_⟩
  · intro ctx t parent pos k hsd
    have := hhead ctx t parent pos k
    rw [processNode.eq_def] at this ⊢
    simp only [hsd, jsStrOpt] at this ⊢
    rfl
  · intro ctx t parent pos k hdd
    rw [processNode.eq_def]
    simp only [hdd, jsStrOpt]
    rfl
  · intro ctx t parent pos k hca
    rw [processNode.eq_def]
    simp only [hca, jsStrOpt]
    rfl
  · intro ctx d g himp
    rw [List.all_eq_true]
    intro fn hfn
    simp only [Bool.and_eq_true]
    have hdates : fn.nodeData.start_date.isSome ∧ fn.nodeData.due_date.isSome := by
      rw [importGraph.eq_def] at himp
      match hd : d.mindMaps with
      | [] => rw [hd] at himp; exact absurd himp (by simp)
      | theme :: rest =>
          simp only [hd] at himp
          by_cases hch : 0 < theme.children.length
          · rw [if_pos hch] at himp
            have hg := Option.some.inj himp
            have : fn ∈ (processRoots ctx theme.children 0 0).1 := by
              rw [← hg] at hfn
              exact hfn
            exact processRoots_dates ctx theme.children 0 0 fn this
          · rw [if_neg hch] at himp
            have hg := Option.some.inj himp
            rw [← hg] at hfn
            simp only [List.mem_cons, List.not_mem_nil, or_false] at hfn
            rw [hfn]
            exact ⟨by simp [themeFallbackNode], by simp [themeFallbackNode]⟩
    exact ⟨hdates.1, hdates.2⟩

/-- Concrete instantiation of `claim_C10_import_date_fill`: importing a node
with absent dates fills them with the current date / import timestamp. -/
theorem claim_C10_witness :
    (((processNode ctx0 c10doc none (0, 0) 0).1.head?.map
        (fun fn => fn.nodeData.start_date)) = some (some "2024-06-02")) ∧
    (((processNode ctx0 c10doc none (0, 0) 0).1.head?.map
        (fun fn => fn.nodeData.created_at)) = some "2024-06-02T00:00:00Z") ∧
    (({ nodes := (processRoots ctx0 [c10doc] 0 0).1,
        edges := (processRoots ctx0 [c10doc] 0 0).2.1 } : Graph).nodes.all
      (fun fn => fn.nodeData.start_date.isSome && fn.nodeData.due_date.isSome)) = true :=
  ⟨claim_C10_import_date_fill.2.1 ctx0 c10doc none (0, 0) 0 rfl,
   claim_C10_import_date_fill.2.2.2.1 ctx0 c10doc none (0, 0) 0 rfl,
   claim_C10_import_date_fill.2.2.2.2 ctx0
     { mindMaps := [{ id := "th", title := "t", created_at := none, updated_at := none,
                      children := [c10doc] }] }
     { nodes := (processRoots ctx0 [c10doc] 0 0).1,
       edges := (processRoots ctx0 [c10doc] 0 0).2.1 } rfl⟩

/-! ## Claim C1: save/load round trip -/

/-- `processChildren` on an empty list is the identity on the counter. -/
theorem pcNil (ctx : ImportCtx) (pid : String) (b : ℚ × ℚ) (tot : ℚ) (i k : Nat) :
    processChildren ctx [] pid b tot i k = ([], [], k) := by
  rw [processChildren.eq_def]

/-- Evaluating `processNode` on the exported single-node tree. -/
theorem pnC1 : processNode ctx0 c1tree none (100, 100) 0 = ([c1rtNode], [], 0) := by
  rw [processNode.eq_def]
  simp [pcNil, c1tree, c1rtNode, ctx0, jsStr, jsStrOpt, MindMapNode.id, MindMapNode.title,
    MindMapNode.description, MindMapNode.priority, MindMapNode.status, MindMapNode.created_at,
    MindMapNode.start_date, MindMapNode.due_date, MindMapNode.tags, MindMapNode.edgeLabel,
    MindMapNode.children]

/-- The full round trip of `gC1` evaluated. -/
theorem rtC1 : roundTrip gC1 "c" "n" "now" 2 ctx0 = some { nodes := [c1rtNode], edges := [] } := by
  have hdoc : exportDocument gC1 "c" "n" "now" 2 = { mindMaps := [c1theme] } := rfl
  rw [roundTrip, hdoc]
  rw [importGraph]
  simp only [c1theme, List.length_cons]
  rw [if_pos (by omega)]
  rw [processRoots.eq_def]
  simp [processRoots.eq_def, pnC1]

/-- C1 counterexample: the one-node forest `gC1` (no `start_date`) does not
round-trip to an isomorphic graph — the reloaded node carries
`start_date = 2024-06-02` (the import day), which no id-renaming can undo,
since isomorphism compares the node field values. -/
theorem claim_C1_counterexample :
    roundTrip gC1 "c" "n" "now" 2 ctx0 = some { nodes := [c1rtNode], edges := [] } ∧
    ¬ GraphIso { nodes := [c1rtNode], edges := [] } gC1 := by
  refine ⟨rtC1, ?_⟩
  rintro ⟨φ, hperm, -⟩
  have hx : ([(φ "A", fieldsOf c1rtNode)] : List (String × NodeFields)).Perm
      [("A", fieldsOf c1node)] := hperm
  have heq := List.perm_singleton.mp hx
  have hfields : fieldsOf c1rtNode = fieldsOf c1node :=
    congrArg Prod.snd (List.head_eq_of_cons_eq heq)
  exact absurd hfields (by decide)

theorem childIdsOf_char (g : Graph) (i : String) :
    childIdsOf g i =
      (g.edges.filter (fun e =>
        decide (e.source = i ∧ e.source ∈ graphIds g ∧ e.target ∈ graphIds g))).map
        (·.target) := by
  unfold childIdsOf exportStore
  rw [foldl_exportStep_childIds]
  rfl

theorem mem_childIdsOf (g : Graph) (i c : String) (h : c ∈ childIdsOf g i) :
    ∃ e ∈ g.edges, e.source = i ∧ e.target = c ∧ c ∈ graphIds g := by
  rw [childIdsOf_char] at h
  obtain ⟨e, he, hc⟩ := List.mem_map.mp h
  obtain ⟨hmem, hcond⟩ := List.mem_filter.mp he
  simp only [decide_eq_true_eq] at hcond
  exact ⟨e, hmem, hcond.1, hc, hc ▸ hcond.2.2⟩

theorem findLastNode_mem (g : Graph) (i : String) (n : FlowNode)
    (h : findLastNode g i = some n) : n ∈ g.nodes ∧ n.id = i := by
  constructor
  · exact List.mem_reverse.mp (List.mem_of_find?_eq_some h)
  · simpa using List.find?_some h

theorem find_of_unique {α : Type} (p : α → Bool) (l : List α) (e : α)
    (hlen : (l.filter p).length ≤ 1) (hmem : e ∈ l) (hp : p e = true) :
    l.find? p = some e := by
  induction l with
  | nil => cases hmem
  | cons x xs ih =>
      by_cases hx : p x = true
      · rw [List.find?_cons_of_pos _ hx]
        rcases List.mem_cons.mp hmem with rfl | hmem'
        · rfl
        · exfalso
          rw [List.filter_cons_of_pos hx] at hlen
          have hnil : xs.filter p = [] := by
            cases hfil : xs.filter p with
            | nil => rfl
            | cons a as => rw [hfil] at hlen; simp at hlen
          have : e ∈ xs.filter p := List.mem_filter.mpr ⟨hmem', hp⟩
          rw [hnil] at this
          cases this
      · rw [List.find?_cons_of_neg _ (by simpa using hx)]
        rcases List.mem_cons.mp hmem with rfl | hmem'
        · exact absurd hp hx
        · refine ih ?_ hmem'
          rw [List.filter_cons_of_neg (by simpa using hx)] at hlen
          exact hlen

theorem parentOf_of_edge (g : Graph) (e : Edge) (hwf : WfEdges g)
    (he : e ∈ g.edges) : parentOf g e.target = some e.source := by
  have hfind : g.edges.find? (fun e' => e'.target == e.target) = some e := by
    apply find_of_unique _ _ _ (hwf.2 e.target (hwf.1 e he).2) he
    simp
  unfold parentOf
  rw [hfind]
  rfl

theorem parentOf_some (g : Graph) (c p : String) (h : parentOf g c = some p) :
    ∃ e ∈ g.edges, e.source = p ∧ e.target = c := by
  unfold parentOf at h
  cases hf : g.edges.find? (fun e => e.target == c) with
  | none => rw [hf] at h; cases h
  | some e =>
      rw [hf] at h
      refine ⟨e, List.mem_of_find?_eq_some hf, by simpa using h, by simpa using List.find?_some hf⟩

theorem childIdsOf_of_parent (g : Graph) (c p : String) (hwf : WfEdges g)
    (hp : parentOf g c = some p) : c ∈ childIdsOf g p := by
  obtain ⟨e, he, hsrc, htgt⟩ := parentOf_some g c p hp
  rw [childIdsOf_char]
  refine List.mem_map.mpr ⟨e, List.mem_filter.mpr ⟨he, ?_⟩, htgt⟩
  have := hwf.1 e he
  simp only [decide_eq_true_eq]
  exact ⟨hsrc, this.1, this.2⟩

theorem parent_of_childIdsOf (g : Graph) (c p : String) (hwf : WfEdges g)
    (hc : c ∈ childIdsOf g p) : parentOf g c = some p := by
  obtain ⟨e, he, hsrc, htgt, _⟩ := mem_childIdsOf g p c hc
  have := parentOf_of_edge g e hwf he
  rw [htgt, hsrc] at this
  exact this

theorem ascend_add (g : Graph) (a b : Nat) (i : String) :
    ascend g (a + b) i = (ascend g a i).bind (ascend g b) := by
  induction a generalizing i with
  | zero => simp [ascend]
  | succ a ih =>
      have : a + 1 + b = (a + b) + 1 := by omega
      rw [this, ascend, ascend]
      cases hp : parentOf g i with
      | none => rfl
      | some y => simp only [Option.some_bind]; exact ih y

theorem ascend_one (g : Graph) (i : String) : ascend g 1 i = parentOf g i := by
  rw [ascend]
  cases hp : parentOf g i with
  | none => rfl
  | some y => rw [Option.some_bind]; rfl

theorem ascend_succ_right (g : Graph) (d : Nat) (i : String) :
    ascend g (d + 1) i = (ascend g d i).bind (parentOf g) := by
  rw [ascend_add g d 1 i]
  cases h : ascend g d i with
  | none => rfl
  | some y => rw [Option.some_bind]; exact ascend_one g y

theorem ascend_stuck (g : Graph) (d e : Nat) (i : String) (h : ascend g d i = none)
    (hle : d ≤ e) : ascend g e i = none := by
  have : e = d + (e - d) := by omega
  rw [this, ascend_add, h]
  rfl

theorem rooted_none (g : Graph) (hr : Rooted g) (i : String) (hi : i ∈ graphIds g) :
    ∃ m, ascend g m i = none := by
  obtain ⟨n, hn, hid⟩ := List.mem_map.mp hi
  obtain ⟨d, _, _, hnone⟩ := hr n hn
  exact ⟨d + 1, by rw [← hid]; exact hnone⟩

theorem ascend_periodic (g : Graph) (c : Nat) (i : String) (h : ascend g c i = some i)
    (m : Nat) : ascend g (m * c) i = some i := by
  induction m with
  | zero => rw [Nat.zero_mul]; rfl
  | succ m ih =>
      have : (m + 1) * c = m * c + c := by ring
      rw [this, ascend_add, ih, Option.some_bind, h]

theorem ascend_depth_unique (g : Graph) (hr : Rooted g) (x i : String)
    (hi : i ∈ graphIds g) (a b : Nat) (ha : ascend g a x = some i)
    (hb : ascend g b x = some i) : a = b := by
  rcases Nat.le_total a b with hle | hle
  case _ =>
    by_contra hne
    have hc : 0 < b - a := by omega
    have hcyc : ascend g (b - a) i = some i := by
      have : b = a + (b - a) := by omega
      rw [this, ascend_add, ha, Option.some_bind] at hb
      exact hb
    obtain ⟨m, hm⟩ := rooted_none g hr i hi
    have hbig : ascend g (m * (b - a)) i = some i := ascend_periodic g (b - a) i hcyc m
    have hnone : ascend g (m * (b - a)) i = none := by
      rcases Nat.eq_zero_or_pos m with rfl | hmpos
      · exact Option.noConfusion hm
      · exact ascend_stuck g m _ i hm (Nat.le_mul_of_pos_right m hc)
    rw [hbig] at hnone
    cases hnone
  case _ =>
    by_contra hne
    have hc : 0 < a - b := by omega
    have hcyc : ascend g (a - b) i = some i := by
      have : a = b + (a - b) := by omega
      rw [this, ascend_add, hb, Option.some_bind] at ha
      exact ha
    obtain ⟨m, hm⟩ := rooted_none g hr i hi
    have hbig : ascend g (m * (a - b)) i = some i := ascend_periodic g (a - b) i hcyc m
    have hnone : ascend g (m * (a - b)) i = none := by
      rcases Nat.eq_zero_or_pos m with rfl | hmpos
      · exact Option.noConfusion hm
      · exact ascend_stuck g m _ i hm (Nat.le_mul_of_pos_right m hc)
    rw [hbig] at hnone
    cases hnone

theorem sum_map_indicator {α : Type} (p : α → Prop) [DecidablePred p] (l : List α) :
    (l.map (fun a => if p a then 1 else 0)).sum = l.countP (fun a => decide (p a)) := by
  induction l with
  | nil => rfl
  | cons a l ih =>
      rw [List.map_cons, List.sum_cons, List.countP_cons, ih]
      by_cases h : p a <;> simp [h] <;> omega

theorem count_childIdsOf_le_one (g : Graph) (hwf : WfEdges g) (p c : String)
    (hc : c ∈ graphIds g) : List.count c (childIdsOf g p) ≤ 1 := by
  rw [childIdsOf_char, List.count_eq_countP, List.countP_map, List.countP_filter]
  have hle : List.countP
      (fun e => ((fun x => x == c) ∘ fun e : Edge => e.target) e &&
        decide (e.source = p ∧ e.source ∈ graphIds g ∧ e.target ∈ graphIds g)) g.edges ≤
      List.countP (fun e : Edge => e.target == c) g.edges := by
    apply List.countP_mono_left
    intro e _ he
    simp only [Function.comp, Bool.and_eq_true, beq_iff_eq] at he
    simp [he.1]
  calc _ ≤ List.countP (fun e : Edge => e.target == c) g.edges := hle
    _ = (g.edges.filter (fun e => e.target == c)).length :=
        (List.countP_eq_length_filter _ _)
    _ ≤ 1 := hwf.2 c hc

theorem count_childIdsOf_eq_one (g : Graph) (hwf : WfEdges g) (p c : String)
    (hc : c ∈ childIdsOf g p) : List.count c (childIdsOf g p) = 1 := by
  obtain ⟨e, he, hs, ht, hcid⟩ := mem_childIdsOf g p c hc
  have h1 : 0 < List.count c (childIdsOf g p) := List.count_pos_iff.mpr hc
  have h2 := count_childIdsOf_le_one g hwf p c hcid
  omega

theorem count_subtreeIds (g : Graph) (hwf : WfEdges g) (hr : Rooted g)
    (x : String) (fuel : Nat) :
    ∀ i : String, i ∈ graphIds g →
    List.count x (subtreeIds g fuel i) =
      if ∃ d, d < fuel ∧ ascend g d x = some i then 1 else 0 := by
  induction fuel with
  | zero =>
      intro i hi
      rw [if_neg (by rintro ⟨d, hd, -⟩; omega)]
      rfl
  | succ fuel ih =>
      intro i hi
      rw [subtreeIds, List.count_cons, List.count_flatMap]
      have hmap : List.map (List.count x ∘ subtreeIds g fuel) (childIdsOf g i) =
          List.map (fun c => if ∃ d, d < fuel ∧ ascend g d x = some c then 1 else 0)
            (childIdsOf g i) := by
        apply List.map_congr_left
        intro c hcmem
        obtain ⟨e, he, hs, ht, hcid⟩ := mem_childIdsOf g i c hcmem
        exact ih c hcid
      rw [hmap, sum_map_indicator]
      by_cases hxi : x = i
      · subst hxi
        have hex0 : ∃ d, d < fuel + 1 ∧ ascend g d x = some x := ⟨0, by omega, rfl⟩
        rw [if_pos hex0]
        have hzero : List.countP
            (fun c => decide (∃ d, d < fuel ∧ ascend g d x = some c)) (childIdsOf g x) = 0 := by
          rw [List.countP_eq_zero]
          intro c hcmem hp
          simp only [decide_eq_true_eq] at hp
          obtain ⟨d, hd, hasc⟩ := hp
          have hpar : parentOf g c = some x := parent_of_childIdsOf g c x hwf hcmem
          have hup : ascend g (d + 1) x = some x := by
            rw [ascend_succ_right, hasc, Option.some_bind, hpar]
          have := ascend_depth_unique g hr x x hi (d + 1) 0 hup rfl
          omega
        rw [hzero]
        simp
      · rw [if_neg (by simpa using Ne.symm hxi)]
        by_cases hex : ∃ d, d < fuel + 1 ∧ ascend g d x = some i
        · rw [if_pos hex]
          obtain ⟨d, hd, hasc⟩ := hex
          rcases d with _ | e
          · exact absurd (Option.some.inj hasc) hxi
          · rw [ascend_succ_right] at hasc
            cases hy : ascend g e x with
            | none => rw [hy] at hasc; cases hasc
            | some y =>
                rw [hy, Option.some_bind] at hasc
                have hymem : y ∈ childIdsOf g i := childIdsOf_of_parent g y i hwf hasc
                have hcong : ∀ c ∈ childIdsOf g i,
                    (decide (∃ d, d < fuel ∧ ascend g d x = some c)) = (c == y) := by
                  intro c hcmem
                  have hpar : parentOf g c = some i := parent_of_childIdsOf g c i hwf hcmem
                  by_cases hcy : c = y
                  · subst hcy
                    have : ∃ d, d < fuel ∧ ascend g d x = some c := ⟨e, by omega, hy⟩
                    simp [this]
                  · have hnot : ¬ ∃ d, d < fuel ∧ ascend g d x = some c := by
                      rintro ⟨d2, hd2, hasc2⟩
                      have hup2 : ascend g (d2 + 1) x = some i := by
                        rw [ascend_succ_right, hasc2, Option.some_bind, hpar]
                      have hup1 : ascend g (e + 1) x = some i := by
                        rw [ascend_succ_right, hy, Option.some_bind, hasc]
                      have hde : d2 + 1 = e + 1 :=
                        ascend_depth_unique g hr x i hi (d2 + 1) (e + 1) hup2 hup1
                      have : d2 = e := by omega
                      subst this
                      rw [hasc2] at hy
                      exact hcy (Option.some.inj hy)
                    simp [hnot, hcy]
                rw [List.countP_eq_length_filter, List.filter_congr hcong]
                have : (List.filter (fun c => c == y) (childIdsOf g i)).length =
                    List.count y (childIdsOf g i) := by
                  rw [List.count_eq_countP, List.countP_eq_length_filter]
                rw [this, count_childIdsOf_eq_one g hwf i y hymem]
        · rw [if_neg hex]
          have hzero : List.countP
              (fun c => decide (∃ d, d < fuel ∧ ascend g d x = some c)) (childIdsOf g i) = 0 := by
            rw [List.countP_eq_zero]
            intro c hcmem hp
            simp only [decide_eq_true_eq] at hp
            obtain ⟨d, hd, hasc⟩ := hp
            have hpar : parentOf g c = some i := parent_of_childIdsOf g c i hwf hcmem
            exact hex ⟨d + 1, by omega,
              by rw [ascend_succ_right, hasc, Option.some_bind, hpar]⟩
          rw [hzero]

theorem parentOf_root (g : Graph) (r : String) (hm : r ∈ rootIds g) :
    parentOf g r = none := by
  obtain ⟨n, hn, hid⟩ := List.mem_map.mp hm
  have hno := (rootNodes_no_incoming g n hn).2
  unfold parentOf
  rw [List.find?_eq_none.mpr (fun e he => by simpa [hid] using hno e he)]
  rfl

theorem mem_rootIds_of_no_parent (g : Graph) (r : String) (hr : r ∈ graphIds g)
    (hnp : parentOf g r = none) : r ∈ rootIds g := by
  obtain ⟨n, hn, hid⟩ := List.mem_map.mp hr
  have hnone : g.edges.find? (fun e => e.target == r) = none := by
    unfold parentOf at hnp
    cases hf : g.edges.find? (fun e => e.target == r) with
    | none => rfl
    | some e => rw [hf] at hnp; cases hnp
  have hroot : n ∈ rootNodes g := by
    unfold rootNodes
    refine List.mem_filter.mpr ⟨hn, ?_⟩
    simp only [Bool.not_eq_eq_eq_not, Bool.not_true, List.any_eq_false]
    intro e he
    have := List.find?_eq_none.mp hnone e he
    simpa [hid] using this
  exact List.mem_map.mpr ⟨n, hroot, hid⟩

theorem rootIds_sub (g : Graph) (r : String) (hm : r ∈ rootIds g) : r ∈ graphIds g := by
  obtain ⟨n, hn, hid⟩ := List.mem_map.mp hm
  exact List.mem_map.mpr ⟨n, (rootNodes_no_incoming g n hn).1, hid⟩

theorem count_rootIds_eq_one (g : Graph) (hnd : (graphIds g).Nodup) (r : String)
    (hm : r ∈ rootIds g) : List.count r (rootIds g) = 1 := by
  have hsub : (rootIds g).Sublist (graphIds g) := by
    unfold rootIds graphIds rootNodes
    exact List.Sublist.map _ (List.filter_sublist g.nodes)
  have hle := hsub.count_le r
  rw [List.count_eq_one_of_mem hnd (rootIds_sub g r hm)] at hle
  have hpos := List.count_pos_iff.mpr hm
  omega

theorem rooted_root_exists (g : Graph) (hwf : WfEdges g) (hr : Rooted g) (x : String)
    (hx : x ∈ graphIds g) :
    ∃ d r, d < g.nodes.length ∧ ascend g d x = some r ∧ parentOf g r = none ∧
      r ∈ rootIds g := by
  obtain ⟨n, hn, hid⟩ := List.mem_map.mp hx
  obtain ⟨d, hd, hsome, hnone⟩ := hr n hn
  rw [hid] at hsome hnone
  cases hasc : ascend g d x with
  | none => rw [hasc] at hsome; cases hsome
  | some r =>
      have hnp : parentOf g r = none := by
        rw [ascend_succ_right, hasc, Option.some_bind] at hnone
        exact hnone
      have hrid : r ∈ graphIds g := by
        rcases d with _ | e
        · exact (Option.some.inj hasc) ▸ hx
        · rw [ascend_succ_right] at hasc
          cases hy : ascend g e x with
          | none => rw [hy] at hasc; cases hasc
          | some y =>
              rw [hy, Option.some_bind] at hasc
              obtain ⟨e', he', hs', ht'⟩ := parentOf_some g y r hasc
              exact hs' ▸ (hwf.1 e' he').1
      exact ⟨d, r, hd, hasc, hnp, mem_rootIds_of_no_parent g r hrid hnp⟩

theorem root_ancestor_unique (g : Graph) (x r r' : String) (d d' : Nat)
    (ha : ascend g d x = some r) (ha' : ascend g d' x = some r')
    (hroot : parentOf g r = none) (hroot' : parentOf g r' = none) : r' = r := by
  rcases Nat.le_total d d' with hle | hle
  · have hsplit : ascend g d' x = (ascend g d x).bind (ascend g (d' - d)) := by
      rw [← ascend_add]
      congr 1
      omega
    rw [ha, Option.some_bind] at hsplit
    rcases Nat.eq_zero_or_pos (d' - d) with hz | hpos
    · rw [hz] at hsplit
      rw [ha', show ascend g 0 r = some r from rfl] at hsplit
      exact Option.some.inj hsplit
    · obtain ⟨c, hc⟩ : ∃ c, d' - d = c + 1 := ⟨d' - d - 1, by omega⟩
      rw [hc] at hsplit
      rw [ascend, hroot] at hsplit
      rw [ha'] at hsplit
      cases hsplit
  · have hsplit : ascend g d x = (ascend g d' x).bind (ascend g (d - d')) := by
      rw [← ascend_add]
      congr 1
      omega
    rw [ha', Option.some_bind] at hsplit
    rcases Nat.eq_zero_or_pos (d - d') with hz | hpos
    · rw [hz] at hsplit
      rw [ha, show ascend g 0 r' = some r' from rfl] at hsplit
      exact (Option.some.inj hsplit).symm
    · obtain ⟨c, hc⟩ : ∃ c, d - d' = c + 1 := ⟨d - d' - 1, by omega⟩
      rw [hc] at hsplit
      rw [ascend, hroot'] at hsplit
      rw [ha] at hsplit
      cases hsplit

theorem count_roots_flatMap (g : Graph) (hwf : WfEdges g) (hr : Rooted g)
    (hnd : (graphIds g).Nodup) (x : String) (hx : x ∈ graphIds g) (fuel : Nat)
    (hfuel : g.nodes.length ≤ fuel) :
    List.count x ((rootIds g).flatMap (subtreeIds g fuel)) = 1 := by
  rw [List.count_flatMap]
  have hmap : List.map (List.count x ∘ subtreeIds g fuel) (rootIds g) =
      List.map (fun r => if ∃ d, d < fuel ∧ ascend g d x = some r then 1 else 0)
        (rootIds g) := by
    apply List.map_congr_left
    intro r hrm
    exact count_subtreeIds g hwf hr x fuel r (rootIds_sub g r hrm)
  rw [hmap, sum_map_indicator]
  obtain ⟨d, r, hd, hasc, hnp, hrm⟩ := rooted_root_exists g hwf hr x hx
  have hcong : ∀ r' ∈ rootIds g,
      (decide (∃ d, d < fuel ∧ ascend g d x = some r')) = (r' == r) := by
    intro r' hrm'
    by_cases hrr : r' = r
    · subst hrr
      have : ∃ e, e < fuel ∧ ascend g e x = some r' := ⟨d, by omega, hasc⟩
      simp [this]
    · have hnot : ¬ ∃ e, e < fuel ∧ ascend g e x = some r' := by
        rintro ⟨e, he, hasc'⟩
        exact hrr (root_ancestor_unique g x r r' d e hasc hasc' hnp (parentOf_root g r' hrm'))
      simp [hnot, hrr]
  rw [List.countP_eq_length_filter, List.filter_congr hcong]
  have : (List.filter (fun r' => r' == r) (rootIds g)).length =
      List.count r (rootIds g) := by
    rw [List.count_eq_countP, List.countP_eq_length_filter]
  rw [this, count_rootIds_eq_one g hnd r hrm]

theorem subtreePairs_edge (g : Graph) : ∀ fuel, ∀ i p c, (p, c) ∈ subtreePairs g fuel i →
    ∃ e ∈ g.edges, e.source = p ∧ e.target = c := by
  intro fuel
  induction fuel using Nat.strong_induction_on with
  | _ fuel ih =>
      intro i p c hm
      rcases fuel with _ | _ | f
      · exact absurd hm (by simp [subtreePairs])
      · exact absurd hm (by simp [subtreePairs])
      · rw [subtreePairs] at hm
        obtain ⟨c', hc', hmm⟩ := List.mem_flatMap.mp hm
        rcases List.mem_cons.mp hmm with heq | hrec
        · obtain ⟨hp, hcc⟩ := Prod.ext_iff.mp heq
          subst hp
          subst hcc
          obtain ⟨e, he, hs, ht, -⟩ := mem_childIdsOf g p c hc'
          exact ⟨e, he, hs, ht⟩
        · exact ih (f + 1) (by omega) c' p c hrec

theorem edge_in_subtreePairs (g : Graph) (hwf : WfEdges g) :
    ∀ d s i c, ascend g d s = some i → c ∈ childIdsOf g s →
    ∀ fuel, d + 2 ≤ fuel → (s, c) ∈ subtreePairs g fuel i := by
  intro d
  induction d with
  | zero =>
      intro s i c hasc hc fuel hf
      have hsi : i = s := (Option.some.inj ((show ascend g 0 s = some s from rfl) ▸ hasc)).symm
      subst hsi
      rcases fuel with _ | _ | f
      · omega
      · omega
      · rw [subtreePairs]
        exact List.mem_flatMap.mpr ⟨c, hc, List.mem_cons_self _ _⟩
  | succ e ihe =>
      intro s i c hasc hc fuel hf
      rw [ascend_succ_right] at hasc
      cases hy : ascend g e s with
      | none => rw [hy] at hasc; cases hasc
      | some y =>
          rw [hy, Option.some_bind] at hasc
          have hymem : y ∈ childIdsOf g i := childIdsOf_of_parent g y i hwf hasc
          rcases fuel with _ | _ | f
          · omega
          · omega
          · rw [subtreePairs]
            exact List.mem_flatMap.mpr
              ⟨y, hymem, List.mem_cons_of_mem _ (ihe s y c hy hc (f + 1) (by omega))⟩

theorem jsStr_empty (s : String) : jsStr s "" = s := by
  unfold jsStr
  split <;> simp [*]

theorem jsStrOpt_some_empty (s : String) : jsStrOpt (some s) "" = s := by
  unfold jsStrOpt
  by_cases h : s = ""
  · simp [h]
  · simp [h]

theorem flatMap_const_nil {α β : Type} (l : List α) : l.flatMap (fun _ => ([] : List β)) = [] := by
  induction l <;> simp [*]

theorem subtreePairs_succ (g : Graph) (fuel : Nat) (i : String) :
    (childIdsOf g i).flatMap (fun c => match fuel with
      | 0 => []
      | _ + 1 => (i, c) :: subtreePairs g fuel c) = subtreePairs g (fuel + 1) i := by
  rcases fuel with _ | f
  · rw [show subtreePairs g 1 i = [] from rfl]
    exact flatMap_const_nil _
  · rfl

theorem fieldRT (ctx : ImportCtx) (nowIso : String) (i : String) (nd : NodeData)
    (hg : GoodFields nd) :
    fieldsOfData
      { id := i, title := jsStr (jsStr nd.title "") "",
        description := some (jsStrOpt (some (jsStrOpt nd.description "")) ""),
        priority := nd.priority, status := nd.status,
        created_at := jsStrOpt (some (jsStr nd.created_at nowIso)) ctx.nowIso,
        start_date := some (jsStrOpt nd.start_date ctx.currentDate),
        due_date := some (jsStrOpt nd.due_date ctx.currentDate), tags := none } =
    fieldsOfData nd := by
  obtain ⟨hdesc, hsd1, hsd2, hdd1, hdd2, hca, htags⟩ := hg
  unfold fieldsOfData
  simp only
  cases hd : nd.description with
  | none => exact absurd hd hdesc
  | some dsc =>
      cases hs : nd.start_date with
      | none => exact absurd hs hsd1
      | some sd =>
          cases hdu : nd.due_date with
          | none => exact absurd hdu hdd1
          | some dd =>
              have hsne : sd ≠ "" := by rintro rfl; exact hsd2 hs
              have hdne : dd ≠ "" := by rintro rfl; exact hdd2 hdu
              rw [htags]
              simp only [jsStr_empty, jsStrOpt_some_empty]
              rw [show jsStrOpt (some sd) ctx.currentDate = sd by simp [jsStrOpt, hsne]]
              rw [show jsStrOpt (some dd) ctx.currentDate = dd by simp [jsStrOpt, hdne]]
              rw [show jsStr nd.created_at nowIso = nd.created_at by simp [jsStr, hca]]
              rw [show jsStrOpt (some nd.created_at) ctx.nowIso = nd.created_at by
                simp [jsStrOpt, hca]]

theorem processNode_eval (ctx : ImportCtx) (t : MindMapNode) (parent : Option String)
    (pos : ℚ × ℚ) (k : Nat) (hid : ¬ t.id = "") :
    processNode ctx t parent pos k =
      ({ id := t.id, position := pos,
         nodeData :=
           { id := t.id, title := jsStr t.title "",
             description := some (jsStrOpt t.description ""),
             priority := t.priority, status := t.status,
             created_at := jsStrOpt t.created_at ctx.nowIso,
             start_date := some (jsStrOpt t.start_date ctx.currentDate),
             due_date := some (jsStrOpt t.due_date ctx.currentDate), tags := none } } ::
         (processChildren ctx t.children t.id pos ((t.children.length : ℚ)) 0 k).1,
       (match parent with
        | some p => [{ id := "edge-" ++ p ++ "-" ++ t.id ++ "-" ++ ctx.nowMs, source := p,
                       target := t.id, sourceHandle := "right", targetHandle := "left",
                       label := jsStrOpt t.edgeLabel "" }]
        | none => ([] : List Edge)) ++
         (processChildren ctx t.children t.id pos ((t.children.length : ℚ)) 0 k).2.1,
       (processChildren ctx t.children t.id pos ((t.children.length : ℚ)) 0 k).2.2) := by
  rw [processNode.eq_def]
  simp only [if_neg hid]

theorem processChildren_eval (ctx : ImportCtx) (t : MindMapNode) (ts : List MindMapNode)
    (pid : String) (base : ℚ × ℚ) (total : ℚ) (idx k : Nat) :
    processChildren ctx (t :: ts) pid base total idx k =
      ((processNode ctx t (some pid) (base.1 + 168, base.2 + ((idx : ℚ) - total / 2) * 84) k).1 ++
        (processChildren ctx ts pid base total (idx + 1)
          (processNode ctx t (some pid) (base.1 + 168, base.2 + ((idx : ℚ) - total / 2) * 84)
            k).2.2).1,
       (processNode ctx t (some pid) (base.1 + 168, base.2 + ((idx : ℚ) - total / 2) * 84)
           k).2.1 ++
        (processChildren ctx ts pid base total (idx + 1)
          (processNode ctx t (some pid) (base.1 + 168, base.2 + ((idx : ℚ) - total / 2) * 84)
            k).2.2).2.1,
       (processChildren ctx ts pid base total (idx + 1)
         (processNode ctx t (some pid) (base.1 + 168, base.2 + ((idx : ℚ) - total / 2) * 84)
           k).2.2).2.2) := by
  rw [processChildren.eq_def]

theorem importCommute (g : Graph) (ctx : ImportCtx) (nowIso : String)
    (hwf : WfEdges g) (hids : ∀ n ∈ g.nodes, ¬ n.id = "")
    (hgood : ∀ n ∈ g.nodes, GoodFields n.nodeData) :
    ∀ fuel : Nat,
    (∀ i ∈ graphIds g, ∀ t, resolveNode g (exportStore g) nowIso fuel i = some t →
      ∀ parent pos k,
        (processNode ctx t parent pos k).1.map (fun fn => (fn.id, fieldsOf fn)) =
          (subtreeIds g fuel i).map (fun j => (j, nodeFieldsAt g j)) ∧
        (processNode ctx t parent pos k).2.1.map (fun e => (e.source, e.target)) =
          (match parent with | some p => [(p, i)] | none => []) ++ subtreePairs g fuel i) ∧
    (∀ cs : List String, (∀ c ∈ cs, c ∈ graphIds g) →
      ∀ pid base total idx k,
        (processChildren ctx (cs.filterMap (resolveNode g (exportStore g) nowIso fuel))
            pid base total idx k).1.map (fun fn => (fn.id, fieldsOf fn)) =
          (cs.flatMap (subtreeIds g fuel)).map (fun j => (j, nodeFieldsAt g j)) ∧
        (processChildren ctx (cs.filterMap (resolveNode g (exportStore g) nowIso fuel))
            pid base total idx k).2.1.map (fun e => (e.source, e.target)) =
          cs.flatMap (fun c => match fuel with
            | 0 => []
            | _ + 1 => (pid, c) :: subtreePairs g fuel c)) := by
  intro fuel
  induction fuel with
  | zero =>
      constructor
      · intro i hi t ht parent pos k
        rw [show resolveNode g (exportStore g) nowIso 0 i = none from rfl] at ht
        cases ht
      · intro cs hcs pid base total idx k
        have hnil : List.filterMap (resolveNode g (exportStore g) nowIso 0) cs = [] :=
          List.filterMap_eq_nil_iff.mpr (fun a _ => rfl)
        rw [hnil, pcNil]
        constructor
        · rw [show cs.flatMap (subtreeIds g 0) = [] by
            rw [show subtreeIds g 0 = fun _ => [] from rfl]; exact flatMap_const_nil cs]
          rfl
        · rw [show cs.flatMap (fun c => match 0 with
              | 0 => ([] : List (String × String))
              | _ + 1 => (pid, c) :: subtreePairs g 0 c) = [] from flatMap_const_nil cs]
          rfl
  | succ fuel ihf =>
      obtain ⟨ihN, ihL⟩ := ihf
      have pnodeSucc : ∀ i ∈ graphIds g, ∀ t,
          resolveNode g (exportStore g) nowIso (fuel + 1) i = some t →
          ∀ parent pos k,
            (processNode ctx t parent pos k).1.map (fun fn => (fn.id, fieldsOf fn)) =
              (subtreeIds g (fuel + 1) i).map (fun j => (j, nodeFieldsAt g j)) ∧
            (processNode ctx t parent pos k).2.1.map (fun e => (e.source, e.target)) =
              (match parent with | some p => [(p, i)] | none => []) ++
                subtreePairs g (fuel + 1) i := by
        intro i hi t ht parent pos k
        obtain ⟨n, hfind, hnid, hres⟩ := resolveNode_of_mem g (exportStore g) nowIso fuel i hi
        rw [hres] at ht
        have hteq := Option.some.inj ht
        subst hteq
        have hine : ¬ i = "" := by
          obtain ⟨hmem, hnid2⟩ := findLastNode_mem g i n hfind
          rw [← hnid2]
          exact hids n hmem
        rw [processNode_eval ctx _ parent pos k (by simpa [MindMapNode.id] using hine)]
        simp only [MindMapNode.id, MindMapNode.title, MindMapNode.description,
          MindMapNode.priority, MindMapNode.status, MindMapNode.created_at,
          MindMapNode.start_date, MindMapNode.due_date, MindMapNode.tags,
          MindMapNode.edgeLabel, MindMapNode.children]
        have hcsub : ∀ c ∈ (exportStore g).childIds i, c ∈ graphIds g := by
          intro c hc
          obtain ⟨e, he, hs, htg, hcid⟩ := mem_childIdsOf g i c hc
          exact hcid
        obtain ⟨hLa, hLb⟩ := ihL ((exportStore g).childIds i) hcsub i pos
          ((((exportStore g).childIds i).filterMap
            (resolveNode g (exportStore g) nowIso fuel)).length : ℚ) 0 k
        constructor
        · rw [List.map_cons, hLa, subtreeIds, List.map_cons]
          congr 1
          have hnodeF : nodeFieldsAt g i = fieldsOf n := by
            unfold nodeFieldsAt
            rw [hfind]
          rw [hnodeF]
          unfold fieldsOf
          rw [fieldRT ctx nowIso i n.nodeData (hgood n (findLastNode_mem g i n hfind).1)]
        · rw [List.map_append, hLb, ← subtreePairs_succ g fuel i]
          congr 1
          cases parent with
          | none => rfl
          | some p => rfl
      refine ⟨pnodeSucc, ?_⟩
      intro cs
      induction cs with
      | nil =>
          intro hcs pid base total idx k
          rw [show List.filterMap (resolveNode g (exportStore g) nowIso (fuel + 1)) [] = []
            from rfl, pcNil]
          exact ⟨rfl, rfl⟩
      | cons c cs' ihc =>
          intro hcs pid base total idx k
          have hc : c ∈ graphIds g := hcs c (List.mem_cons_self c cs')
          have hcs' : ∀ x ∈ cs', x ∈ graphIds g :=
            fun x hx => hcs x (List.mem_cons_of_mem c hx)
          obtain ⟨n, hfind, hnid, hres⟩ := resolveNode_of_mem g (exportStore g) nowIso fuel c hc
          rw [List.filterMap_cons, hres]
          rw [processChildren_eval]
          obtain ⟨hNa, hNb⟩ := pnodeSucc c hc _ hres (some pid)
            (base.1 + 168, base.2 + ((idx : ℚ) - total / 2) * 84) k
          obtain ⟨hCa, hCb⟩ := ihc hcs' pid base total (idx + 1)
            (processNode ctx _ (some pid)
              (base.1 + 168, base.2 + ((idx : ℚ) - total / 2) * 84) k).2.2
          constructor
          · rw [List.map_append, hNa, hCa, List.flatMap_cons, List.map_append]
          · rw [List.map_append, hNb, hCb, List.flatMap_cons]
            rfl

theorem processRoots_eval (ctx : ImportCtx) (t : MindMapNode) (ts : List MindMapNode)
    (idx k : Nat) :
    processRoots ctx (t :: ts) idx k =
      ((processNode ctx t none (100, 100 + (idx : ℚ) * 112) k).1 ++
        (processRoots ctx ts (idx + 1)
          (processNode ctx t none (100, 100 + (idx : ℚ) * 112) k).2.2).1,
       (processNode ctx t none (100, 100 + (idx : ℚ) * 112) k).2.1 ++
        (processRoots ctx ts (idx + 1)
          (processNode ctx t none (100, 100 + (idx : ℚ) * 112) k).2.2).2.1,
       (processRoots ctx ts (idx + 1)
         (processNode ctx t none (100, 100 + (idx : ℚ) * 112) k).2.2).2.2) := rfl

theorem processRootsCommute (g : Graph) (ctx : ImportCtx) (nowIso : String)
    (hwf : WfEdges g) (hids : ∀ n ∈ g.nodes, ¬ n.id = "")
    (hgood : ∀ n ∈ g.nodes, GoodFields n.nodeData) (fuel : Nat) :
    ∀ rs : List String, (∀ r ∈ rs, r ∈ graphIds g) → ∀ idx k,
      (processRoots ctx (rs.filterMap (resolveNode g (exportStore g) nowIso (fuel + 1)))
          idx k).1.map (fun fn => (fn.id, fieldsOf fn)) =
        (rs.flatMap (subtreeIds g (fuel + 1))).map (fun j => (j, nodeFieldsAt g j)) ∧
      (processRoots ctx (rs.filterMap (resolveNode g (exportStore g) nowIso (fuel + 1)))
          idx k).2.1.map (fun e => (e.source, e.target)) =
        rs.flatMap (subtreePairs g (fuel + 1)) := by
  have hPn := (importCommute g ctx nowIso hwf hids hgood (fuel + 1)).1
  intro rs
  induction rs with
  | nil => intro hrs idx k; exact ⟨rfl, rfl⟩
  | cons r rs' ih =>
      intro hrs idx k
      have hr : r ∈ graphIds g := hrs r (List.mem_cons_self r rs')
      have hrs' : ∀ x ∈ rs', x ∈ graphIds g := fun x hx => hrs x (List.mem_cons_of_mem r hx)
      obtain ⟨n, hfind, hnid, hres⟩ := resolveNode_of_mem g (exportStore g) nowIso fuel r hr
      rw [List.filterMap_cons, hres, processRoots_eval]
      obtain ⟨hNa, hNb⟩ := hPn r hr _ hres none (100, 100 + (idx : ℚ) * 112) k
      obtain ⟨hCa, hCb⟩ := ih hrs' (idx + 1)
        (processNode ctx _ none (100, 100 + (idx : ℚ) * 112) k).2.2
      constructor
      · rw [List.map_append, hNa, hCa, List.flatMap_cons, List.map_append]
      · rw [List.map_append, hNb, hCb, List.flatMap_cons]
        rfl

theorem subtreeIds_sub (g : Graph) : ∀ fuel i, ∀ x ∈ subtreeIds g fuel i, x = i ∨
    x ∈ graphIds g := by
  intro fuel
  induction fuel with
  | zero => intro i x hx; cases hx
  | succ fuel ih =>
      intro i x hx
      rw [subtreeIds] at hx
      rcases List.mem_cons.mp hx with rfl | hx'
      · exact Or.inl rfl
      · obtain ⟨c, hc, hxc⟩ := List.mem_flatMap.mp hx'
        obtain ⟨e, he, hs, ht, hcid⟩ := mem_childIdsOf g i c hc
        rcases ih c x hxc with rfl | hmem
        · exact Or.inr hcid
        · exact Or.inr hmem

theorem countPair_bridge (p : String × NodeFields) (l : List (String × NodeFields)) :
    @List.count _ (@instBEqOfDecidableEq _ instDecidableEqProd) p l = List.count p l := by
  rw [@List.count_eq_countP _ (@instBEqOfDecidableEq _ instDecidableEqProd),
    List.count_eq_countP]
  apply List.countP_congr
  intro x _
  constructor
  · intro hx
    exact beq_iff_eq.mpr (of_decide_eq_true hx)
  · intro hx
    exact decide_eq_true (eq_of_beq hx)

theorem count_map_pairG (l : List String) (F : String → NodeFields) (i : String)
    (f : NodeFields) :
    List.count (i, f) (l.map (fun j => (j, F j))) = if f = F i then List.count i l else 0 := by
  rw [List.count_eq_countP, List.countP_map]
  by_cases hf : f = F i
  · rw [if_pos hf, List.count_eq_countP]
    apply List.countP_congr
    intro a _
    simp only [Function.comp, beq_iff_eq, Prod.mk.injEq]
    constructor
    · rintro ⟨rfl, -⟩; rfl
    · rintro rfl; exact ⟨rfl, hf.symm⟩
  · rw [if_neg hf]
    rw [List.countP_eq_zero]
    intro a _ hp
    simp only [Function.comp, beq_iff_eq, Prod.mk.injEq] at hp
    exact hf (hp.1 ▸ hp.2.symm)

theorem count_nodes_pairs (g : Graph) (hnd : (graphIds g).Nodup) (i : String)
    (f : NodeFields) :
    List.count (i, f) (g.nodes.map (fun n => (n.id, fieldsOf n))) =
      if i ∈ graphIds g ∧ f = nodeFieldsAt g i then 1 else 0 := by
  rw [List.count_eq_countP, List.countP_map]
  by_cases hmem : i ∈ graphIds g
  · obtain ⟨m, hfind, hmid⟩ := findLastNode_of_mem g i hmem
    have hmmem : m ∈ g.nodes := (findLastNode_mem g i m hfind).1
    have hF : nodeFieldsAt g i = fieldsOf m := by unfold nodeFieldsAt; rw [hfind]
    have huniq : ∀ n ∈ g.nodes, n.id = i → n = m := by
      intro n hn hni
      exact List.inj_on_of_nodup_map hnd hn hmmem (by rw [hni, hmid])
    by_cases hf : f = fieldsOf m
    · rw [if_pos ⟨hmem, hF ▸ hf⟩]
      have hcong : List.countP
          ((fun x => x == (i, f)) ∘ fun n : FlowNode => (n.id, fieldsOf n)) g.nodes =
          List.countP (fun n => n == m) g.nodes := by
        apply List.countP_congr
        intro n hn
        simp only [Function.comp, beq_iff_eq, Prod.mk.injEq]
        constructor
        · rintro ⟨h1, -⟩; exact huniq n hn h1
        · rintro rfl; exact ⟨hmid, hf.symm⟩
      rw [hcong, ← List.count_eq_countP,
        List.count_eq_one_of_mem (List.Nodup.of_map _ hnd) hmmem]
    · rw [if_neg (by rintro ⟨-, hff⟩; exact hf (hF ▸ hff))]
      rw [List.countP_eq_zero]
      intro n hn hp
      simp only [Function.comp, beq_iff_eq, Prod.mk.injEq] at hp
      exact hf ((huniq n hn hp.1) ▸ hp.2.symm)
  · rw [if_neg (by rintro ⟨h1, -⟩; exact hmem h1)]
    rw [List.countP_eq_zero]
    intro n hn hp
    simp only [Function.comp, beq_iff_eq, Prod.mk.injEq] at hp
    exact hmem (hp.1 ▸ List.mem_map.mpr ⟨n, hn, rfl⟩)

theorem childIdsOf_of_edge (g : Graph) (hwf : WfEdges g) (e : Edge) (he : e ∈ g.edges) :
    e.target ∈ childIdsOf g e.source := by
  rw [childIdsOf_char]
  refine List.mem_map.mpr ⟨e, List.mem_filter.mpr ⟨he, ?_⟩, rfl⟩
  have := hwf.1 e he
  simp only [decide_eq_true_eq]
  exact ⟨by trivial, this.1, this.2⟩

theorem exportDocument_children (g : Graph) (cid cname nowIso : String) (fuel : Nat) :
    exportDocument g cid cname nowIso fuel =
      { mindMaps := [mkTheme cid cname nowIso
          ((rootIds g).filterMap (resolveNode g (exportStore g) nowIso fuel))] } := by
  unfold exportDocument rootIds mkTheme
  rw [List.filterMap_map]
  rfl

theorem importGraph_of_children (ctx : ImportCtx) (cid cname nowIso : String)
    (ch : List MindMapNode) (hch : ch ≠ []) :
    importGraph ctx { mindMaps := [mkTheme cid cname nowIso ch] } =
      some { nodes := (processRoots ctx ch 0 0).1, edges := (processRoots ctx ch 0 0).2.1 } := by
  rw [importGraph]
  simp only [mkTheme]
  rw [if_pos (by simpa using List.length_pos.mpr hch)]

/-- C1 (amended): exporting a nonempty forest — unique nonempty node ids,
every edge joining two present nodes, at most one incoming edge per node,
every node reaching a parentless ancestor — and re-importing the document
yields a graph isomorphic to the original (same node field values, same
parent/child edge relation; ids and positions may differ), provided every
node's `description` is present, `start_date` and `due_date` are present
and nonempty, `created_at` is nonempty, and no `tags` are stored.  Without
those field conditions the import fills the gaps (see the counterexample). -/
theorem claim_C1_round_trip (g : Graph) (cid cname nowIso : String) (ctx : ImportCtx)
    (hne : g.nodes ≠ [])
    (hids : ∀ n ∈ g.nodes, ¬ n.id = "")
    (hnd : (graphIds g).Nodup)
    (hwf : WfEdges g)
    (hr : Rooted g)
    (hgood : ∀ n ∈ g.nodes, GoodFields n.nodeData) :
    ∃ g', roundTrip g cid cname nowIso (g.nodes.length + 2) ctx = some g' ∧ GraphIso g' g := by
  obtain ⟨n0, hn0⟩ := List.exists_mem_of_ne_nil g.nodes hne
  have hx0 : n0.id ∈ graphIds g := List.mem_map.mpr ⟨n0, hn0, rfl⟩
  obtain ⟨d0, r0, hd0, hasc0, hnp0, hrm0⟩ := rooted_root_exists g hwf hr n0.id hx0
  have hfe : g.nodes.length + 2 = g.nodes.length + 1 + 1 := rfl
  obtain ⟨nr, hfindr, -, hresr⟩ :=
    resolveNode_of_mem g (exportStore g) nowIso (g.nodes.length + 1) r0 (rootIds_sub g r0 hrm0)
  have hchne : (rootIds g).filterMap
      (resolveNode g (exportStore g) nowIso (g.nodes.length + 2)) ≠ [] := by
    rw [hfe]
    exact List.ne_nil_of_mem (List.mem_filterMap.mpr ⟨r0, hrm0, hresr⟩)
  have himp : roundTrip g cid cname nowIso (g.nodes.length + 2) ctx =
      some { nodes := (processRoots ctx ((rootIds g).filterMap
               (resolveNode g (exportStore g) nowIso (g.nodes.length + 2))) 0 0).1,
             edges := (processRoots ctx ((rootIds g).filterMap
               (resolveNode g (exportStore g) nowIso (g.nodes.length + 2))) 0 0).2.1 } := by
    rw [roundTrip, exportDocument_children, importGraph_of_children ctx cid cname nowIso _ hchne]
  refine ⟨_, himp, ?_⟩
  obtain ⟨hCa, hCb⟩ := processRootsCommute g ctx nowIso hwf hids hgood (g.nodes.length + 1)
    (rootIds g) (fun r hrm => rootIds_sub g r hrm) 0 0
  rw [← hfe] at hCa hCb
  refine ⟨fun s => s, ?_, ?_⟩
  · rw [List.perm_iff_count]
    rintro ⟨i, f⟩
    rw [countPair_bridge, countPair_bridge]
    rw [show (List.map (fun n => ((fun s => s) n.id, fieldsOf n))
        (processRoots ctx ((rootIds g).filterMap
          (resolveNode g (exportStore g) nowIso (g.nodes.length + 2))) 0 0).1) =
      (List.map (fun n => (n.id, fieldsOf n))
        (processRoots ctx ((rootIds g).filterMap
          (resolveNode g (exportStore g) nowIso (g.nodes.length + 2))) 0 0).1) from rfl]
    rw [hCa, count_map_pairG ((rootIds g).flatMap (subtreeIds g (g.nodes.length + 2)))
      (nodeFieldsAt g) i f, count_nodes_pairs g hnd]
    by_cases hi : i ∈ graphIds g
    · rw [count_roots_flatMap g hwf hr hnd i hi (g.nodes.length + 2) (by omega)]
      by_cases hf : f = nodeFieldsAt g i
      · rw [if_pos hf, if_pos ⟨hi, hf⟩]
      · rw [if_neg hf, if_neg (by rintro ⟨-, hff⟩; exact hf hff)]
    · have hnotmem : i ∉ (rootIds g).flatMap (subtreeIds g (g.nodes.length + 2)) := by
        intro hmem
        obtain ⟨r', hr', hsub⟩ := List.mem_flatMap.mp hmem
        rcases subtreeIds_sub g (g.nodes.length + 2) r' i hsub with rfl | hmem2
        · exact hi (rootIds_sub g i hr')
        · exact hi hmem2
      rw [List.count_eq_zero_of_not_mem hnotmem]
      have hni : ¬ (i ∈ graphIds g ∧ f = nodeFieldsAt g i) := by
        rintro ⟨h1, -⟩
        exact hi h1
      rw [if_neg hni]
      split <;> rfl
  · intro s t
    constructor
    · rintro ⟨e, he, hs, ht⟩
      have hpair : (s, t) ∈ (processRoots ctx ((rootIds g).filterMap
          (resolveNode g (exportStore g) nowIso (g.nodes.length + 2))) 0 0).2.1.map
            (fun e => (e.source, e.target)) :=
        List.mem_map.mpr ⟨e, he, by rw [hs, ht]⟩
      rw [hCb] at hpair
      obtain ⟨r', hr', hsp⟩ := List.mem_flatMap.mp hpair
      obtain ⟨e', he', hs', ht'⟩ := subtreePairs_edge g (g.nodes.length + 2) r' s t hsp
      exact ⟨e', he', by simpa using hs', by simpa using ht'⟩
    · rintro ⟨e, he, hs, ht⟩
      have hsrc : e.source ∈ graphIds g := (hwf.1 e he).1
      obtain ⟨d', r', hd', hasc', hnp', hrm'⟩ := rooted_root_exists g hwf hr e.source hsrc
      have hchild : e.target ∈ childIdsOf g e.source := childIdsOf_of_edge g hwf e he
      have hsp : (e.source, e.target) ∈ subtreePairs g (g.nodes.length + 2) r' :=
        edge_in_subtreePairs g hwf d' e.source r' e.target hasc' hchild
          (g.nodes.length + 2) (by omega)
      have hpair : (s, t) ∈ (rootIds g).flatMap (subtreePairs g (g.nodes.length + 2)) := by
        have hst : (s, t) = (e.source, e.target) := by
          simp only [Prod.mk.injEq]
          exact ⟨by simpa using hs.symm, by simpa using ht.symm⟩
        rw [hst]
        exact List.mem_flatMap.mpr ⟨r', hrm', hsp⟩
      rw [← hCb] at hpair
      obtain ⟨e', he', hpe⟩ := List.mem_map.mp hpair
      obtain ⟨hs', ht'⟩ := Prod.ext_iff.mp hpe
      exact ⟨e', he', hs', ht'⟩

/-- C1 witness: the concrete two-node forest `A → B` satisfies every
hypothesis and round-trips to an isomorphic graph. -/
theorem claim_C1_witness :
    (gC1W.nodes ≠ [] ∧ (∀ n ∈ gC1W.nodes, ¬ n.id = "") ∧ (graphIds gC1W).Nodup ∧
      WfEdges gC1W ∧ Rooted gC1W ∧ (∀ n ∈ gC1W.nodes, GoodFields n.nodeData)) ∧
    (∃ g', roundTrip gC1W "cv" "nm" "nowI" (gC1W.nodes.length + 2) ctx0 = some g' ∧
      GraphIso g' gC1W) :=
  ⟨⟨by decide, by decide, by decide, by decide, by decide, by decide⟩,
    claim_C1_round_trip gC1W "cv" "nm" "nowI" ctx0 (by decide) (by decide) (by decide)
      (by decide) (by decide) (by decide)⟩
